import Mathlib

/-!
Shallow embedding of the `metaextract` pipeline (text miner, search engine,
downloader, extractors, result processor) and proofs about it.

Strings are modelled as lists of characters (`List Char`); Python's `re`
finditer loops are modelled by explicit scanners that reproduce the
leftmost, greedy-with-backtracking behaviour of the concrete patterns
used in `src/metaextract/search/parser.py`.
-/

namespace MetaExtract

/-! ### Character classes (ASCII, as used by the Python regexes) -/

/-- ASCII uppercase letter. -/
def isUpperAZ (c : Char) : Bool := 'A' ≤ c && c ≤ 'Z'

/-- ASCII lowercase letter. -/
def isLowerAZ (c : Char) : Bool := 'a' ≤ c && c ≤ 'z'

/-- ASCII letter. -/
def isAlphaAZ (c : Char) : Bool := isUpperAZ c || isLowerAZ c

/-- ASCII digit. -/
def isDigit09 (c : Char) : Bool := '0' ≤ c && c ≤ '9'

/-- ASCII alphanumeric. -/
def isAlnum (c : Char) : Bool := isAlphaAZ c || isDigit09 c

/-- Python `\w` (word character) restricted to ASCII: `[A-Za-z0-9_]`. -/
def isWord (c : Char) : Bool := isAlnum c || c = '_'

/-- Python `\s` whitespace (ASCII part). -/
def isSpaceCh (c : Char) : Bool :=
  c = ' ' || c = '\t' || c = '\n' || c = '\r' || c = '\x0b' || c = '\x0c'

/-- `str.lower` on the ASCII range (all characters the miners match are ASCII). -/
def pyLower (c : Char) : Char :=
  if isUpperAZ c then Char.ofNat (c.toNat + 32) else c

/-- Email local-part class `[A-Za-z0-9._%+-]`. -/
def isLcl (c : Char) : Bool :=
  isAlnum c || c = '.' || c = '_' || c = '%' || c = '+' || c = '-'

/-- Email domain class `[A-Za-z0-9.-]`. -/
def isDom (c : Char) : Bool := isAlnum c || c = '.' || c = '-'

/-- Email TLD class `[A-Z|a-z]` (the source pattern literally includes `|`). -/
def isTld (c : Char) : Bool := isAlphaAZ c || c = '|'

/-- URL body class `[^\s<>"')\]}>]`. -/
def isUrlCh (c : Char) : Bool :=
  !(isSpaceCh c || c = '<' || c = '>' || c = '"' || c = '\x27' ||
    c = ')' || c = ']' || c = '}')

/-- Hostname label interior class `[a-zA-Z0-9-]`. -/
def isHy (c : Char) : Bool := isAlnum c || c = '-'

/-- Windows/UNC path body class `[^\s<>"']`. -/
def isPathCh (c : Char) : Bool :=
  !(isSpaceCh c || c = '<' || c = '>' || c = '"' || c = '\x27')

/-- Unix path segment class `[^\s<>"'/]`. -/
def isSegCh (c : Char) : Bool := isPathCh c && c ≠ '/'

/-- Trailing sentence punctuation stripped by the miners: `.,;:!?)>]}`. -/
def isPunct (c : Char) : Bool :=
  c = '.' || c = ',' || c = ';' || c = ':' || c = '!' || c = '?' ||
  c = ')' || c = '>' || c = ']' || c = '}'

/-! ### Small list/string helpers -/

/-- Wordness of the first character of a list (`false` at end of text,
matching how `\b` treats the text boundary). -/
def headIsWord (l : List Char) : Bool :=
  match l with
  | [] => false
  | c :: _ => isWord c

/-- Test whether the list starts with a given (non-space) character. -/
def headIs (c : Char) (l : List Char) : Bool :=
  match l with
  | [] => false
  | d :: _ => d = c

/-- Test whether the first character satisfies `p` (`false` for empty). -/
def headP (p : Char → Bool) (l : List Char) : Bool :=
  match l with
  | [] => false
  | d :: _ => p d

/-- Wordness of the last character of a list (`false` for empty). -/
def lastIsWord (l : List Char) : Bool :=
  match l.getLast? with
  | none => false
  | some c => isWord c

/-- Right-strip the trailing sentence punctuation, one character at a time
(the `while url and url[-1] in ".,;:!?)>]}"` loops of the miners): removes
the maximal punctuation suffix. -/
def stripPunct (l : List Char) : List Char :=
  (l.reverse.dropWhile isPunct).reverse

/-- Lexicographic (code-point) order on character lists, Python's `<=` on `str`. -/
def lexLe (a b : List Char) : Bool :=
  match a, b with
  | [], _ => true
  | _ :: _, [] => false
  | c :: a', d :: b' => if c = d then lexLe a' b' else decide (c < d)

/-- Insert into a list keeping it `lexLe`-sorted (insertion sort step). -/
def insLe (x : List Char) (l : List (List Char)) : List (List Char) :=
  match l with
  | [] => [x]
  | y :: ys => if lexLe x y then x :: y :: ys else y :: insLe x ys

/-- Insertion sort by `lexLe`; models Python's `sorted` on a set of strings. -/
def sortLex (l : List (List Char)) : List (List Char) :=
  match l with
  | [] => []
  | x :: xs => insLe x (sortLex xs)

/-- Append `x` unless already present (the `set.add` / membership-checked
append used throughout the code). -/
def insAbsent (acc : List (List Char)) (x : List Char) : List (List Char) :=
  if x ∈ acc then acc else acc ++ [x]

/-- Deduplicate keeping first occurrences (Python `set` accumulation,
order then canonicalised by sorting). -/
def dedupKF (l : List (List Char)) : List (List Char) :=
  l.foldl insAbsent []

/-! ### The email pattern `\b[A-Za-z0-9._%+-]+@[A-Za-z0-9.-]+\.[A-Z|a-z]{2,}\b`

`tailGo` and `domGo` reproduce the greedy-with-backtracking exploration of
the Python engine: the domain run (`[A-Za-z0-9.-]+`) is tried longest first,
and for each split the TLD run (`[A-Z|a-z]{2,}`) is tried longest first with
the trailing `\b` checked against the following character. -/

/-- Longest-first search for the TLD part: try `t` characters of the maximal
TLD run `trun` (rest of text `m` starts with `trun`), requiring `t ≥ 2` and a
word boundary after the match. -/
def tailGo (trun m : List Char) : Nat → Option Nat
  | 0 => none
  | t + 1 =>
    if 2 ≤ t + 1 &&
        (lastIsWord (trun.take (t + 1)) != headIsWord (m.drop (t + 1))) then
      some (t + 1)
    else tailGo trun m t

/-- Match `\.[A-Z|a-z]{2,}\b` at the start of `m`. -/
def tailTry (m : List Char) : Option Nat :=
  tailGo (m.takeWhile isTld) m (m.takeWhile isTld).length

/-- Longest-first search for the `[A-Za-z0-9.-]+` part: consume `k` characters
of the maximal domain run `drun` (followed by `aft`), then require a literal
`.` and a TLD.  Returns `(k, t)`. -/
def domGo (drun aft : List Char) : Nat → Option (Nat × Nat)
  | 0 => none
  | k + 1 =>
    if headIs '.' (drun.drop (k + 1) ++ aft) then
      match tailTry (drun.drop (k + 2) ++ aft) with
      | some t => some (k + 1, t)
      | none => domGo drun aft k
    else domGo drun aft k

/-- Match the full email pattern at the start of `l`, `w` being the wordness
of the preceding character (`false` at the start of the text).  Returns the
length of the match. -/
def matchEmail (w : Bool) (l : List Char) : Option Nat :=
  let loc := l.takeWhile isLcl
  if loc.isEmpty then none
  else if w == headIsWord l then none
  else
    let r1 := l.dropWhile isLcl
    if headIs '@' r1 then
      let r2 := r1.tail
      match domGo (r2.takeWhile isDom) (r2.dropWhile isDom)
          (r2.takeWhile isDom).length with
      | some (k, t) => some (loc.length + 1 + k + 1 + t)
      | none => none
    else none

/-! ### The URL pattern `https?://[^\s<>"')\]}>]+` (case-insensitive) -/

/-- Case-insensitive character comparison against a lowercase target. -/
def chEqCI (c target : Char) : Bool := pyLower c = target

/-- Case-insensitive literal match against a template; returns the rest of
the input on success. -/
def matchLit (tpl : List Char) (l : List Char) : Option (List Char) :=
  match tpl, l with
  | [], l => some l
  | _ :: _, [] => none
  | c :: tpl', d :: l' => if chEqCI d c then matchLit tpl' l' else none

/-- Match the URL pattern at the start of `l` (the `\b`-free pattern ignores
the preceding character): the greedy `s?` tries `https://` first, then
`http://`, then the body run.  Returns the length of the match. -/
def matchUrl (_w : Bool) (l : List Char) : Option Nat :=
  match matchLit ('h' :: 't' :: 't' :: 'p' :: 's' :: ':' :: '/' :: '/' :: []) l with
  | some rest =>
    let run := rest.takeWhile isUrlCh
    if run.isEmpty then none else some (8 + run.length)
  | none =>
    match matchLit ('h' :: 't' :: 't' :: 'p' :: ':' :: '/' :: '/' :: []) l with
    | some rest =>
      let run := rest.takeWhile isUrlCh
      if run.isEmpty then none else some (7 + run.length)
    | none => none

/-! ### The hostname pattern
`\b(?:[a-zA-Z0-9](?:[a-zA-Z0-9-]{0,61}[a-zA-Z0-9])?\.)+[a-zA-Z]{2,}\b`

A label `[a-zA-Z0-9](?:[a-zA-Z0-9-]{0,61}[a-zA-Z0-9])?\.` can only match by
consuming the entire following `[a-zA-Z0-9-]` run (shorter splits leave a
non-dot next), so label consumption is deterministic. -/

/-- Match one hostname label (including its trailing dot) at the start of
`l`; returns the consumed length. -/
def labelStep (l : List Char) : Option Nat :=
  match l with
  | [] => none
  | c :: rest =>
    if isAlnum c then
      let r := rest.takeWhile isHy
      if headIs '.' (rest.dropWhile isHy) &&
          (r.isEmpty || (r.length ≤ 62 && lastIsWord r)) then
        some (1 + r.length + 1)
      else none
    else none

/-- Cumulative end positions of the maximal greedy chain of repetitions of
a step (labels of a hostname, segments of a unix path). -/
def chainPos (step : List Char → Option Nat) (fuel : Nat) (l : List Char)
    (pos : Nat) : List Nat :=
  match fuel with
  | 0 => []
  | fuel + 1 =>
    match step (l.drop pos) with
    | some d => (pos + d) :: chainPos step fuel l (pos + d)
    | none => []

/-- Cumulative end positions of the maximal greedy chain of labels. -/
def labelChain (fuel : Nat) (l : List Char) (pos : Nat) : List Nat :=
  chainPos labelStep fuel l pos

/-- The tail `[a-zA-Z]{2,}\b` at position `p` of `l`: deterministic because
all TLD letters are word characters. -/
def hostTail (l : List Char) (p : Nat) : Option Nat :=
  let trun := (l.drop p).takeWhile isAlphaAZ
  if 2 ≤ trun.length && !headIsWord ((l.drop p).drop trun.length) then
    some trun.length
  else none

/-- Try label counts longest-first: `ps` is the list of label end positions
in decreasing order. -/
def hostGo (l : List Char) : List Nat → Option Nat
  | [] => none
  | p :: ps =>
    match hostTail l p with
    | some t => some (p + t)
    | none => hostGo l ps

/-- Match the hostname pattern at the start of `l`. -/
def matchHost (w : Bool) (l : List Char) : Option Nat :=
  if headP isAlnum l && !w then
    hostGo l (labelChain l.length l 0).reverse
  else none

/-! ### The path patterns of `extract_paths` -/

/-- Windows paths `[A-Za-z]:\\[^\s<>"']+`. -/
def matchWin (_w : Bool) (l : List Char) : Option Nat :=
  match l with
  | c1 :: c2 :: c3 :: rest =>
    if isAlphaAZ c1 && c2 = ':' && c3 = '\\' then
      let run := rest.takeWhile isPathCh
      if run.isEmpty then none else some (3 + run.length)
    else none
  | _ => none

/-- One `[^\s<>"'/]+/` segment; returns consumed length. -/
def segStep (l : List Char) : Option Nat :=
  let s := l.takeWhile isSegCh
  if s.isEmpty then none
  else if headIs '/' (l.dropWhile isSegCh) then some (s.length + 1)
  else none

/-- Cumulative end positions of the greedy chain of segments. -/
def segChain (fuel : Nat) (l : List Char) (pos : Nat) : List Nat :=
  chainPos segStep fuel l pos

/-- Try segment counts longest-first, requiring a nonempty final
`[^\s<>"']+` part. -/
def unixGo (l : List Char) : List Nat → Option Nat
  | [] => none
  | p :: ps =>
    let fin := (l.drop p).takeWhile isPathCh
    if fin.isEmpty then unixGo l ps else some (p + fin.length)

/-- Unix paths `/(?:[^\s<>"'/]+/)+[^\s<>"']+`. -/
def matchUnix (_w : Bool) (l : List Char) : Option Nat :=
  match l with
  | c :: rest =>
    if c = '/' then
      match (segChain rest.length rest 0).reverse with
      | [] => none
      | p :: ps =>
        match unixGo rest (p :: ps) with
        | some n => some (1 + n)
        | none => none
    else none
  | [] => none

/-- UNC paths `\\\\[^\s<>"']+` (two literal backslashes then a run). -/
def matchUnc (_w : Bool) (l : List Char) : Option Nat :=
  match l with
  | c1 :: c2 :: rest =>
    if c1 = '\\' && c2 = '\\' then
      let run := rest.takeWhile isPathCh
      if run.isEmpty then none else some (2 + run.length)
    else none
  | _ => none

/-! ### The finditer scanner -/

/-- Leftmost non-overlapping scan: at each position try the matcher `f`
(passing the wordness of the previous character for `\b`); on a match of
length `n`, emit it and continue after it.  `fuel ≥ l.length` suffices. -/
def scanM (f : Bool → List Char → Option Nat) :
    Nat → Bool → List Char → List (List Char)
  | 0, _, _ => []
  | _ + 1, _, [] => []
  | fuel + 1, w, c :: cs =>
    match f w (c :: cs) with
    | some n =>
      (c :: cs).take n ::
        scanM f fuel (lastIsWord ((c :: cs).take n)) ((c :: cs).drop n)
    | none => scanM f fuel (isWord c) cs

/-! ### The four miner functions of `search/parser.py` -/

/-- `EMAIL_BLACKLIST` from the source. -/
def EMAIL_BLACKLIST : List (List Char) :=
  ["example.com", "example.org", "test.com", "localhost", "domain.com"].map
    String.data

/-- `FALSE_TLDS` from the source. -/
def FALSE_TLDS : List (List Char) :=
  [".pdf", ".doc", ".docx", ".xls", ".xlsx", ".ppt", ".pptx", ".zip",
   ".rar", ".exe", ".dll", ".jpg", ".jpeg", ".png", ".gif"].map String.data

/-- Python `str.split(sep)` for a single-character separator. -/
def splitOnCh (c : Char) : List Char → List (List Char)
  | [] => [[]]
  | d :: rest =>
    if d = c then [] :: splitOnCh c rest
    else
      match splitOnCh c rest with
      | [] => [[d]]
      | p :: ps => (d :: p) :: ps

/-- `email.split("@")[1] if "@" in email else ""`. -/
def emailDomain (e : List Char) : List Char :=
  if '@' ∈ e then ((splitOnCh '@' e).drop 1).headD [] else []

/-- The filter body of `extract_emails` (blacklisted domain or false-TLD
suffix ⇒ dropped). -/
def emailKeep (e : List Char) : Bool :=
  if emailDomain e ∈ EMAIL_BLACKLIST then false
  else if FALSE_TLDS.any (fun ext => ext.isSuffixOf e) then false
  else true

/-- `extract_emails` from `search/parser.py`. -/
def extract_emails (s : String) : List String :=
  let text := s.data
  if text.isEmpty then []
  else
    let ms := scanM matchEmail text.length false text
    let kept := (ms.map (fun m => m.map pyLower)).filter emailKeep
    (sortLex (dedupKF kept)).map (fun l => String.mk l)

/-- `extract_urls` from `search/parser.py`. -/
def extract_urls (s : String) : List String :=
  let text := s.data
  if text.isEmpty then []
  else
    let ms := scanM matchUrl text.length false text
    let kept := (ms.map stripPunct).filter (fun u => !u.isEmpty)
    (sortLex (dedupKF kept)).map (fun l => String.mk l)

/-- `extract_hostnames` from `search/parser.py`. -/
def extract_hostnames (s : String) (domain : Option String) : List String :=
  let text := s.data
  if text.isEmpty then []
  else
    let ms := scanM matchHost text.length false text
    let kept := (ms.map (fun m => m.map pyLower)).filter (fun h =>
      if FALSE_TLDS.any (fun ext => ext.isSuffixOf h) then false
      else
        match domain with
        | some d => if d.data.isEmpty then true
                    else (d.data.map pyLower).isSuffixOf h
        | none => true)
    (sortLex (dedupKF kept)).map (fun l => String.mk l)

/-- `extract_paths` from `search/parser.py`: three passes (Windows, Unix,
UNC) into one set, then sorted. -/
def extract_paths (s : String) : List String :=
  let text := s.data
  if text.isEmpty then []
  else
    let wins := (scanM matchWin text.length false text).map stripPunct
      |>.filter (fun p => !p.isEmpty)
    let unixs := (scanM matchUnix text.length false text).map stripPunct
      |>.filter (fun p => !p.isEmpty && 3 < p.length)
    let uncs := (scanM matchUnc text.length false text).map stripPunct
      |>.filter (fun p => !p.isEmpty)
    (sortLex (dedupKF (wins ++ unixs ++ uncs))).map (fun l => String.mk l)

/-! ### Python string helpers used by the search/download layers -/

/-- Decimal digits of a natural number (fuel-based, structural). -/
def natDigits : Nat → Nat → List Char
  | 0, _ => []
  | fuel + 1, n =>
    if n < 10 then [Char.ofNat (48 + n)]
    else natDigits fuel (n / 10) ++ [Char.ofNat (48 + n % 10)]

/-- Decimal representation of a natural number (Python `str(int)`). -/
def natStr (n : Nat) : List Char := natDigits (n + 1) n

/-- First index at which `pat` occurs as a contiguous sublist (`str.find`). -/
def findSub (pat : List Char) : List Char → Option Nat
  | [] => if pat.isEmpty then some 0 else none
  | c :: rest =>
    if pat.isPrefixOf (c :: rest) then some 0
    else (findSub pat rest).map (· + 1)

/-- Python `pat in s` (substring containment). -/
def containsSub (pat l : List Char) : Bool := (findSub pat l).isSome

/-- Case-insensitive substring containment (used by the ignore-case file
pattern of the result parser). -/
def containsSubCI (pat l : List Char) : Bool :=
  containsSub (pat.map pyLower) (l.map pyLower)

/-- Split at the first occurrence of `c`, dropping the separator
(Python `s.split(c, 1)`); returns the whole string and `[]` if absent. -/
def splitFirst (c : Char) (l : List Char) : List Char × List Char :=
  (l.takeWhile (fun d => d ≠ c), (l.dropWhile (fun d => d ≠ c)).drop 1)

/-- Python `str.strip()` (default whitespace). -/
def pyStrip (l : List Char) : List Char :=
  ((l.dropWhile isSpaceCh).reverse.dropWhile isSpaceCh).reverse

/-- Hex digit value. -/
def hexVal (c : Char) : Option Nat :=
  if '0' ≤ c && c ≤ '9' then some (c.toNat - 48)
  else if 'a' ≤ c && c ≤ 'f' then some (c.toNat - 87)
  else if 'A' ≤ c && c ≤ 'F' then some (c.toNat - 55)
  else none

/-- ASCII-faithful model of `urllib.parse.unquote`: `%XX` with an ASCII
value decodes to that character; non-ASCII escape bytes are replaced by
U+FFFD (Python would decode multi-byte UTF-8 sequences, which none of the
verified inputs contain). -/
def pyUnquote : List Char → List Char
  | [] => []
  | '%' :: h1 :: h2 :: rest =>
    match hexVal h1, hexVal h2 with
    | some v1, some v2 =>
      let b := v1 * 16 + v2
      (if b < 128 then Char.ofNat b else Char.ofNat 0xFFFD) :: pyUnquote rest
    | _, _ => '%' :: pyUnquote (h1 :: h2 :: rest)
  | c :: rest => c :: pyUnquote rest

/-- Model of `html.unescape` restricted to the five basic entities
(`&amp; &lt; &gt; &quot; &#39;`); other entities do not occur in the
verified inputs. -/
def pyUnescape : List Char → List Char
  | [] => []
  | '&' :: 'a' :: 'm' :: 'p' :: ';' :: rest => '&' :: pyUnescape rest
  | '&' :: 'l' :: 't' :: ';' :: rest => '<' :: pyUnescape rest
  | '&' :: 'g' :: 't' :: ';' :: rest => '>' :: pyUnescape rest
  | '&' :: 'q' :: 'u' :: 'o' :: 't' :: ';' :: rest => '"' :: pyUnescape rest
  | '&' :: '#' :: '3' :: '9' :: ';' :: rest => '\x27' :: pyUnescape rest
  | c :: rest => c :: pyUnescape rest

/-! ### Model of `urllib.parse.urlparse` (CPython 3.11 `urlsplit`) -/

/-- `scheme_chars` of `urllib.parse`. -/
def isSchemeChar (c : Char) : Bool :=
  isAlnum c || c = '+' || c = '-' || c = '.'

/-- C0 control or space, stripped from the left of a URL. -/
def isC0OrSpace (c : Char) : Bool := c.toNat ≤ 32

/-- The unsafe bytes removed from URLs. -/
def isUnsafeUrlByte (c : Char) : Bool := c = '\t' || c = '\r' || c = '\n'

/-- Result of `urlparse`. -/
structure ParseRes where
  scheme : List Char
  netloc : List Char
  path : List Char
  params : List Char
  query : List Char
  fragment : List Char
deriving DecidableEq, Repr

/-- `uses_params` of `urllib.parse`. -/
def usesParams : List (List Char) :=
  ["", "ftp", "hdl", "prospero", "http", "imap", "https", "shttp", "rtsp",
   "rtsps", "rtspu", "sip", "sips", "mms", "sftp", "tel"].map String.data

/-- Approximate model of `ipaddress.ip_address` acceptance for a bracketed
host: hex digits, colons and dots with at least one colon (IPv6-looking),
or an IPvFuture `v<hex>.<rest>`.  Exotic malformed IPv6 literals may differ
from CPython; no verified input contains a bracketed host. -/
def validBracketHost (h : List Char) : Bool :=
  match h with
  | 'v' :: rest =>
    let hx := rest.takeWhile (fun c => (hexVal c).isSome)
    !hx.isEmpty && headIs '.' (rest.drop hx.length) &&
      !((rest.drop hx.length).drop 1).isEmpty
  | _ =>
    !h.isEmpty && (':' ∈ h) &&
      h.all (fun c => (hexVal c).isSome || c = ':' || c = '.')

/-- CPython 3.11 `urlsplit`, as an `Option` (exception ⇒ `none`). -/
def pyUrlsplit (url0 : List Char) : Option (List Char × List Char ×
    List Char × List Char × List Char) :=
  let url1 := (url0.dropWhile isC0OrSpace).filter (fun c => !isUnsafeUrlByte c)
  -- scheme
  let (scheme, url2) :=
    match findSub [':'] url1 with
    | some i =>
      if 0 < i && headP (fun c => isAlphaAZ c) url1 &&
          (url1.take i).all isSchemeChar then
        ((url1.take i).map pyLower, url1.drop (i + 1))
      else ([], url1)
    | none => ([], url1)
  -- netloc
  let hasNetloc := (['/', '/'] : List Char).isPrefixOf url2
  let netloc :=
    if hasNetloc then
      (url2.drop 2).takeWhile (fun c => !(c = '/' || c = '?' || c = '#'))
    else []
  let url3 :=
    if hasNetloc then
      (url2.drop 2).dropWhile (fun c => !(c = '/' || c = '?' || c = '#'))
    else url2
  -- bracket validation (raises in CPython)
  if ('[' ∈ netloc) ≠ (']' ∈ netloc) then none
  else if '[' ∈ netloc &&
      !validBracketHost
        (((netloc.dropWhile (fun c => c ≠ '[')).drop 1).takeWhile
          (fun c => c ≠ ']')) then none
  else
    let (url4, fragment) :=
      if '#' ∈ url3 then splitFirst '#' url3 else (url3, [])
    let (url5, query) :=
      if '?' ∈ url4 then splitFirst '?' url4 else (url4, [])
    some (scheme, netloc, url5, query, fragment)

/-- `_splitparams` of `urllib.parse`. -/
def pySplitparams (url : List Char) : List Char × List Char :=
  if '/' ∈ url then
    let j := url.length - 1 - (List.findIdx (fun c => c = '/') url.reverse)
    match findSub [';'] (url.drop j) with
    | some i2 => (url.take (j + i2), url.drop (j + i2 + 1))
    | none => (url, [])
  else
    match findSub [';'] url with
    | some i => (url.take i, url.drop (i + 1))
    | none => (url, [])

/-- CPython 3.11 `urlparse`. -/
def pyUrlparse (url0 : List Char) : Option ParseRes :=
  match pyUrlsplit url0 with
  | none => none
  | some (scheme, netloc, url, query, fragment) =>
    if scheme ∈ usesParams && ';' ∈ url then
      let (p, params) := pySplitparams url
      some ⟨scheme, netloc, p, params, query, fragment⟩
    else some ⟨scheme, netloc, url, [], query, fragment⟩

/-! ### `search/duckduckgo.py`: result parsing -/

/-- A `SearchResult` (url plus optional title). -/
structure SearchResultL where
  url : List Char
  title : Option (List Char)
deriving DecidableEq, Repr

/-- `[^<]*` / `[^"]+` / `[^>]+` style tail of the `result__a` anchor
pattern: `[^>]*` then `>`, then the captured `([^<]*)`, then `</a>`
(all deterministic since the classes exclude the following literal's
first character). -/
def resAEnd (l : List Char) : Option (List Char × List Char) :=
  let r3 := l.takeWhile (fun c => c ≠ '>')
  match l.drop r3.length with
  | '>' :: l6 =>
    let g2 := l6.takeWhile (fun c => c ≠ '<')
    match matchLit ('<' :: '/' :: 'a' :: '>' :: []) (l6.drop g2.length) with
    | some rest => some (g2, rest)
    | none => none
  | _ => none

/-- The captured `([^"]+)` href value, its closing quote, and the anchor
tail. -/
def resAHref (l : List Char) : Option ((List Char × List Char) × List Char) :=
  let g1 := l.takeWhile (fun c => c ≠ '"')
  if g1.isEmpty then none
  else
    match l.drop g1.length with
    | '"' :: l4 =>
      match resAEnd l4 with
      | some (g2, rest) => some ((g1, g2), rest)
      | none => none
    | _ => none

/-- Backtracking over the second `[^>]+` (longest first), followed by the
literal `href="`. -/
def resAK2 (l : List Char) : Nat → Option ((List Char × List Char) × List Char)
  | 0 => none
  | k + 1 =>
    match matchLit ('h' :: 'r' :: 'e' :: 'f' :: '=' :: '"' :: []) (l.drop (k + 1)) with
    | some l3 =>
      match resAHref l3 with
      | some r => some r
      | none => resAK2 l k
    | none => resAK2 l k

/-- Backtracking over the first `[^>]+` (longest first), followed by the
literal `class="result__a"`. -/
def resAK1 (l : List Char) : Nat → Option ((List Char × List Char) × List Char)
  | 0 => none
  | k + 1 =>
    match matchLit ('c' :: 'l' :: 'a' :: 's' :: 's' :: '=' :: '"' :: 'r' ::
        'e' :: 's' :: 'u' :: 'l' :: 't' :: '_' :: '_' :: 'a' :: '"' :: [])
        (l.drop (k + 1)) with
    | some l2 =>
      match resAK2 l2 (l2.takeWhile (fun c => c ≠ '>')).length with
      | some r => some r
      | none => resAK1 l k
    | none => resAK1 l k

/-- One attempt of the `result__a` link pattern
`<a[^>]+class="result__a"[^>]+href="([^"]+)"[^>]*>([^<]*)</a>`
(case-insensitive) at the start of `l`; returns the two captures and the
rest of the input after the match. -/
def matchResultA (l : List Char) :
    Option ((List Char × List Char) × List Char) :=
  match matchLit ('<' :: 'a' :: []) l with
  | some l1 => resAK1 l1 (l1.takeWhile (fun c => c ≠ '>')).length
  | none => none

/-- One attempt of the direct file-link pattern
`href="([^"]*\.<ext>[^"]*)"` (case-insensitive) at the start of `l`. -/
def matchFileHref (ext : List Char) (l : List Char) :
    Option (List Char × List Char) :=
  match matchLit ('h' :: 'r' :: 'e' :: 'f' :: '=' :: '"' :: []) l with
  | some l1 =>
    let r := l1.takeWhile (fun c => c ≠ '"')
    match l1.drop r.length with
    | '"' :: rest =>
      if containsSubCI ('.' :: ext) r then some (r, rest) else none
    | _ => none
  | none => none

/-- `finditer` with captures: try the matcher at each position, continue
after a match (`fuel ≥ l.length` suffices). -/
def scanCap {α : Type} (m : List Char → Option (α × List Char)) :
    Nat → List Char → List α
  | 0, _ => []
  | _ + 1, [] => []
  | fuel + 1, c :: cs =>
    match m (c :: cs) with
    | some (a, rest) => a :: scanCap m fuel rest
    | none => scanCap m fuel cs

/-- `DuckDuckGoSearch._extract_uddg_url`. -/
def extract_uddg_url (url : List Char) : Option (List Char) :=
  if containsSub ("uddg=".data) url then
    match findSub ("uddg=".data) url with
    | some i =>
      let start := i + 5
      let encoded :=
        match findSub ['&'] (url.drop start) with
        | some j => (url.drop start).take j
        | none => url.drop start
      some (pyUnquote encoded)
    | none => none
  else none

/-- `DuckDuckGoSearch._clean_url`. -/
def clean_url (url : List Char) : List Char :=
  let u := pyUnquote (pyUnescape url)
  if (['/', '/'] : List Char).isPrefixOf u then
    'h' :: 't' :: 't' :: 'p' :: 's' :: ':' :: u
  else if ("http://".data).isPrefixOf u || ("https://".data).isPrefixOf u then
    u
  else []

/-- `DuckDuckGoSearch._is_valid_file_url` (exception from `urlparse` ⇒
`False`). -/
def is_valid_file_url (domain url ft : List Char) : Bool :=
  match pyUrlparse url with
  | none => false
  | some p =>
    if p.scheme.isEmpty || p.netloc.isEmpty then false
    else if !(('.' :: ft.map pyLower).isSuffixOf (p.path.map pyLower)) then
      false
    else !(!domain.isEmpty && !containsSub domain p.netloc)

/-- One iteration of the structured `result__a` loop of `_parse_results`:
`g` is (href capture, visible-text capture). -/
def passAStep (ft domain : List Char) (acc : List SearchResultL)
    (g : List Char × List Char) : List SearchResultL :=
  let url := g.1
  let title := pyUnescape (pyStrip g.2)
  if containsSub ("uddg=".data) url then
    match extract_uddg_url url with
    | some actual =>
      if !actual.isEmpty && is_valid_file_url domain actual ft then
        acc ++ [⟨actual, some title⟩]
      else acc
    | none => acc
  else if is_valid_file_url domain url ft then acc ++ [⟨url, some title⟩]
  else acc

/-- One iteration of the direct-href loop of `_parse_results`. -/
def passBStep (ft domain : List Char) (acc : List SearchResultL)
    (url0 : List Char) : List SearchResultL :=
  let url := clean_url url0
  if !url.isEmpty && is_valid_file_url domain url ft &&
      !(acc.any (fun r => r.url = url)) then
    acc ++ [⟨url, none⟩]
  else acc

/-- `DuckDuckGoSearch._parse_results`: structured `result__a` pass (with
`uddg` unwrapping), then the direct-href pass with URL cleaning and
per-URL dedup. -/
def parse_results (html ft domain : List Char) : List SearchResultL :=
  (scanCap (matchFileHref ft) html.length html).foldl (passBStep ft domain)
    ((scanCap matchResultA html.length html).foldl (passAStep ft domain) [])

/-! ### `search/duckduckgo.py`: the retry loop of `search_files` -/

/-- Outcome of one HTTP attempt, scripted from outside. -/
inductive SearchResp where
  | http (status : Nat) (body : List Char)
  | netErr (msg : List Char)

/-- A raised `SearchError` (message plus the query it carries). -/
structure SearchErr where
  msg : List Char
  query : List Char
deriving DecidableEq, Repr

/-- Python `lst[:k]` for an `int` bound. -/
def pySliceStop {α : Type} (l : List α) (k : Int) : List α :=
  if k < 0 then l.take (l.length - (-k).toNat) else l.take k.toNat

/-- The attempt loop of `search_files`: `fuel` counts the remaining
attempts, `attempt` the current index; `sleeps` and `reqs` accumulate the
backoff sleeps performed and HTTP requests issued. -/
def searchAttempts (script : Nat → SearchResp) (q ft domain : List Char)
    (maxRetries : Nat) :
    Nat → Nat → Nat → Nat → Except SearchErr (List SearchResultL) × Nat × Nat
  | 0, _, sleeps, reqs => (Except.ok [], sleeps, reqs)
  | fuel + 1, attempt, sleeps, reqs =>
    let sleeps' := if 0 < attempt then sleeps + 1 else sleeps
    match script attempt with
    | SearchResp.http st body =>
      if st = 202 || st = 429 then
        if attempt < maxRetries - 1 then
          searchAttempts script q ft domain maxRetries fuel (attempt + 1)
            sleeps' (reqs + 1)
        else
          (Except.error ⟨"Rate limited (status ".data ++ natStr st ++
            ")".data, q⟩, sleeps', reqs + 1)
      else if st ≠ 200 then
        (Except.error ⟨"Search failed with status ".data ++ natStr st, q⟩,
          sleeps', reqs + 1)
      else (Except.ok (parse_results body ft domain), sleeps', reqs + 1)
    | SearchResp.netErr m =>
      if attempt < maxRetries - 1 then
        searchAttempts script q ft domain maxRetries fuel (attempt + 1)
          sleeps' (reqs + 1)
      else
        (Except.error ⟨"Network error: ".data ++ m, q⟩, sleeps', reqs + 1)

/-- Observable outcome of one `search_files` call. -/
structure SearchOutcome where
  result : Except SearchErr (List SearchResultL)
  backoffSleeps : Nat
  requests : Nat
  courtesy : Bool

/-- `DuckDuckGoSearch.search_files`: builds the query, runs the attempt
loop, and — only when the loop ends without raising — performs the final
courtesy sleep and truncates to `limit`. -/
def search_files (script : Nat → SearchResp) (domain ft : List Char)
    (limit : Int) (maxRetries : Nat) : SearchOutcome :=
  let q := "filetype:".data ++ ft ++ " site:".data ++ domain
  match searchAttempts script q ft domain maxRetries maxRetries 0 0 0 with
  | (Except.ok rs, sleeps, reqs) =>
    ⟨Except.ok (pySliceStop rs limit), sleeps, reqs, true⟩
  | (Except.error e, sleeps, reqs) =>
    ⟨Except.error e, sleeps, reqs, false⟩

/-! ### `download/downloader.py`: filenames, unique paths, downloads -/

/-- Index of the last occurrence of `c` (Python `str.rfind`; `none` when
absent). -/
def rfindIdx (c : Char) : List Char → Option Nat
  | [] => none
  | d :: rest =>
    match rfindIdx c rest with
    | some i => some (i + 1)
    | none => if d = c then some 0 else none

/-- `Path(name).suffix` (CPython: nonempty exactly when the last dot sits
strictly inside the name). -/
def pathSuffix (name : List Char) : List Char :=
  match rfindIdx '.' name with
  | some i => if 0 < i ∧ i < name.length - 1 then name.drop i else []
  | none => []

/-- `Path(name).stem`. -/
def pathStem (name : List Char) : List Char :=
  match rfindIdx '.' name with
  | some i => if 0 < i ∧ i < name.length - 1 then name.take i else name
  | none => name

/-- One character of `_sanitize_filename`'s replacement loop: each of the
unsafe characters becomes `_`. -/
def sanitizeChar (c : Char) : Char :=
  if c = '<' ∨ c = '>' ∨ c = ':' ∨ c = '"' ∨ c = '/' ∨ c = '\\' ∨
      c = '|' ∨ c = '?' ∨ c = '*' then '_' else c

/-- `name.rsplit(c, 1)` as a pair when `c` occurs, else `(name, "")`. -/
def rsplitLast (c : Char) (l : List Char) : List Char × List Char :=
  match rfindIdx c l with
  | some i => (l.take i, l.drop (i + 1))
  | none => (l, [])

/-- `AsyncDownloader._sanitize_filename`. -/
def sanitize_filename (f0 : List Char) : List Char :=
  let f := f0.map sanitizeChar
  if 200 < f.length then
    let pr := rsplitLast '.' f
    pr.1.take 190 ++ (if pr.2.isEmpty then [] else '.' :: pr.2)
  else f

/-- `AsyncDownloader._extract_filename`: the last segment of the parsed
URL path, unquoted, cut at `?`, defaulted to `downloaded_file` and
sanitized (`none` when `urlparse` raises). -/
def extract_filename (url : List Char) : Option (List Char) :=
  match pyUrlparse url with
  | none => none
  | some p =>
    let path := pyUnquote p.path
    let f1 := (splitOnCh '/' path).getLastD []
    let f2 := if containsSub "?".data f1 then (splitOnCh '?' f1).headD []
      else f1
    let f3 := if f2.isEmpty then "downloaded_file".data else f2
    some (sanitize_filename f3)

/-- The `while path.exists()` loop of `_get_unique_path`: each round
replaces the path by `stem_counter ++ ext` and increments the counter.
The fuel bounds the rounds; `fs.length + 1` rounds always suffice. -/
def uniqueLoop (fs : List (List Char)) (stem ext : List Char) :
    Nat → Nat → List Char → List Char
  | 0, _, path => path
  | fuel + 1, counter, path =>
    if path ∈ fs then
      uniqueLoop fs stem ext fuel (counter + 1)
        (stem ++ '_' :: natStr counter ++ ext)
    else path

/-- `AsyncDownloader._get_unique_path`, over the set `fs` of files that
exist in the output directory. -/
def get_unique_path (fs : List (List Char)) (name : List Char) :
    List Char :=
  if name ∈ fs then
    uniqueLoop fs (pathStem name) (pathSuffix name) (fs.length + 1) 1 name
  else name

/-- Outcome of one `session.get`, scripted from outside. -/
inductive FetchResp where
  | http (status : Nat) (content : List Char)
  | timeout
  | netErr (msg : List Char)

/-- `DownloadResult` from `core/models.py`. -/
structure DownloadResultL where
  url : List Char
  local_path : Option (List Char)
  success : Bool
  error : Option (List Char)
deriving DecidableEq, Repr

/-- `AsyncDownloader._download_file`: the result, the number of HTTP
fetches issued, and the files present afterwards. -/
def download_file (fetch : List Char → FetchResp) (fs : List (List Char))
    (url : List Char) : DownloadResultL × Nat × List (List Char) :=
  match extract_filename url with
  | none => (⟨url, none, false, some "Invalid IPv6 URL".data⟩, 0, fs)
  | some filename =>
    let localPath := get_unique_path fs filename
    if localPath ∈ fs then (⟨url, some localPath, true, none⟩, 0, fs)
    else
      match fetch url with
      | FetchResp.http st content =>
        if st = 200 then
          if content.length < 100 then
            (⟨url, none, false, some "File too small or empty".data⟩, 1,
              fs)
          else (⟨url, some localPath, true, none⟩, 1, fs ++ [localPath])
        else
          (⟨url, none, false, some ("HTTP ".data ++ natStr st)⟩, 1, fs)
      | FetchResp.timeout =>
        (⟨url, none, false, some "Timeout".data⟩, 1, fs)
      | FetchResp.netErr m =>
        (⟨url, none, false, some ("Network error: ".data ++ m)⟩, 1, fs)

/-- `urls[:limit] if limit else urls`, with Python truthiness of
`limit : int | None` (both `None` and `0` are falsy). -/
def urlsToDownload (urls : List (List Char)) (limit : Option Int) :
    List (List Char) :=
  match limit with
  | none => urls
  | some k => if k = 0 then urls else pySliceStop urls k

/-- Sequential model of the gathered download tasks: results are
assembled in input position; the fetch count and the file set are
threaded through. -/
def downloadGo (fetch : List Char → FetchResp) :
    List (List Char) → List (List Char) →
      List DownloadResultL × Nat × List (List Char)
  | [], fs => ([], 0, fs)
  | url :: rest, fs =>
    let r := download_file fetch fs url
    let rs := downloadGo fetch rest r.2.2
    (r.1 :: rs.1, r.2.1 + rs.2.1, rs.2.2)

/-- `AsyncDownloader.download_files`. -/
def download_files (fetch : List Char → FetchResp)
    (urls : List (List Char)) (limit : Option Int)
    (fs : List (List Char)) :
    List DownloadResultL × Nat × List (List Char) :=
  downloadGo fetch (urlsToDownload urls limit) fs

/-- Decimal decode with accumulator (inverts `natStr`). -/
def decAcc : Nat → List Char → Nat
  | a, [] => a
  | a, c :: rest => decAcc (a * 10 + (c.toNat - 48)) rest

/-! ### `extractors/` and `processing/processor.py`: metadata pipelines -/

/-- Guarded insert used by every membership-checked `append` of the
extractors and the enrichment loops. -/
def insAbs {α : Type} [DecidableEq α] (acc : List α) (x : α) : List α :=
  if x ∈ acc then acc else acc ++ [x]

/-- First-occurrence deduplication, preserving first-seen order. -/
def dedupF {α : Type} [DecidableEq α] (l : List α) : List α :=
  l.foldl insAbs []

/-- `DocumentMetadata` from `core/models.py` (the fields the verified
pipelines touch; every list starts empty). -/
structure DocMeta where
  source_url : Option String := none
  author : Option String := none
  creator : Option String := none
  last_modified_by : Option String := none
  producer : Option String := none
  application : Option String := none
  app_version : Option String := none
  template : Option String := none
  users : List String := []
  software : List String := []
  paths : List String := []
  emails : List String := []
deriving DecidableEq, Repr

/-- The decoded PDF info dictionary: `some s` stands for a present,
truthy raw value decoding to `s`. -/
structure PdfInfo where
  author : Option String
  creator : Option String
  producer : Option String
  title : Option String
  subject : Option String

/-- The DOCX core/app properties: `some s` stands for a present, truthy
value `s`. -/
structure DocxProps where
  author : Option String
  last_modified_by : Option String
  application : Option String
  app_version : Option String
  template : Option String

/-- `MetadataExtractor._clean_string` (`str(value).strip()`). -/
def clean_string (s : String) : String := String.mk (pyStrip s.data)

/-- `"/" in s or "\\" in s`. -/
def hasSlash (s : String) : Bool :=
  containsSub "/".data s.data || containsSub "\\".data s.data

/-- The `Author` block of `PDFExtractor._extract_info`. -/
def pdfStepAuthor (info : PdfInfo) (m : DocMeta) : DocMeta :=
  match info.author with
  | some a =>
    if !a.isEmpty then
      { m with author := some a, users := insAbs m.users a }
    else m
  | none => m

/-- The `Creator` block of `PDFExtractor._extract_info`. -/
def pdfStepCreator (info : PdfInfo) (m : DocMeta) : DocMeta :=
  match info.creator with
  | some a =>
    if !a.isEmpty then
      { m with creator := some a, software := insAbs m.software a }
    else m
  | none => m

/-- The `Producer` block of `PDFExtractor._extract_info`. -/
def pdfStepProducer (info : PdfInfo) (m : DocMeta) : DocMeta :=
  match info.producer with
  | some a =>
    if !a.isEmpty then
      { m with producer := some a, software := insAbs m.software a }
    else m
  | none => m

/-- The `Title` block of `PDFExtractor._extract_info`: appended to
`paths` without a membership check. -/
def pdfStepTitle (info : PdfInfo) (m : DocMeta) : DocMeta :=
  match info.title with
  | some t =>
    if hasSlash t then { m with paths := m.paths ++ [t] } else m
  | none => m

/-- The `Subject` block of `PDFExtractor._extract_info`: appended to
`emails` without a membership check. -/
def pdfStepSubject (info : PdfInfo) (m : DocMeta) : DocMeta :=
  match info.subject with
  | some s =>
    if containsSub "@".data s.data then
      { m with emails := m.emails ++ [s] }
    else m
  | none => m

/-- `PDFExtractor._extract_info`: the five blocks in source order. -/
def pdfExtractInfo (info : PdfInfo) (m : DocMeta) : DocMeta :=
  pdfStepSubject info (pdfStepTitle info
    (pdfStepProducer info (pdfStepCreator info (pdfStepAuthor info m))))

/-- The author block of `DOCXExtractor.extract`. -/
def docxStepAuthor (props : DocxProps) (m : DocMeta) : DocMeta :=
  match props.author with
  | some a =>
    let ca := clean_string a
    if !ca.isEmpty then
      { m with author := some ca, users := insAbs m.users ca }
    else { m with author := some ca }
  | none => m

/-- The last-modified-by block of `DOCXExtractor.extract`. -/
def docxStepLastMod (props : DocxProps) (m : DocMeta) : DocMeta :=
  match props.last_modified_by with
  | some a =>
    let ca := clean_string a
    if !ca.isEmpty then
      { m with last_modified_by := some ca, users := insAbs m.users ca }
    else { m with last_modified_by := some ca }
  | none => m

/-- The `Application` block of `DOCXExtractor._extract_app_info`. -/
def docxStepApp (props : DocxProps) (m : DocMeta) : DocMeta :=
  match props.application with
  | some t => { m with application := some t,
                       software := insAbs m.software t }
  | none => m

/-- The `AppVersion` block of `DOCXExtractor._extract_app_info`. -/
def docxStepVersion (props : DocxProps) (m : DocMeta) : DocMeta :=
  match props.app_version with
  | some v => { m with app_version := some v }
  | none => m

/-- The `Template` block of `DOCXExtractor._extract_app_info`: appended
to `paths` without a membership check. -/
def docxStepTemplate (props : DocxProps) (m : DocMeta) : DocMeta :=
  match props.template with
  | some t =>
    if hasSlash t then
      { m with template := some t, paths := m.paths ++ [t] }
    else { m with template := some t }
  | none => m

/-- `DOCXExtractor.extract` (the metadata-list part): the blocks in
source order, from the fresh base metadata. -/
def docxExtract (props : DocxProps) : DocMeta :=
  docxStepTemplate props (docxStepVersion props
    (docxStepApp props (docxStepLastMod props
      (docxStepAuthor props {}))))

/-- `ResultProcessor._enrich_metadata`: when the text is present and
truthy, fold the mined emails and paths in with membership checks. -/
def enrich_metadata (text : Option String) (m : DocMeta) : DocMeta :=
  match text with
  | none => m
  | some t =>
    if t.isEmpty then m
    else
      { m with
        emails := (extract_emails t).foldl insAbs m.emails,
        paths := (extract_paths t).foldl insAbs m.paths }

/-- A present value that passes its truthiness/shape guard, as a
candidate list of length at most one. -/
def optKeep (o : Option String) (keep : String → Bool) : List String :=
  match o with
  | some s => if keep s then [s] else []
  | none => []

/-- The mined values contributed by the (optional) text content. -/
def textCands (text : Option String) (f : String → List String) :
    List String :=
  match text with
  | none => []
  | some t => if t.isEmpty then [] else f t

/-- `ScanResults` from `core/models.py` (the two lists `process_file`
touches). -/
structure ScanResultsL where
  documents : List DocMeta
  failed : List (String × String)
deriving DecidableEq, Repr

/-- `ExtractionResult` from `core/models.py`. -/
structure ExtractionResultL where
  success : Bool
  metadata : Option DocMeta
  error : Option String
deriving DecidableEq, Repr

/-- `result.error or "Unknown error"` (Python truthiness: `None` and the
empty string both fall back). -/
def orUnknown (e : Option String) : String :=
  match e with
  | some s => if s.isEmpty then "Unknown error" else s
  | none => "Unknown error"

/-- `if source_url: result.metadata.source_url = source_url`. -/
def apply_source_url (su : Option String) (m : DocMeta) : DocMeta :=
  match su with
  | some u => if u.isEmpty then m else { m with source_url := some u }
  | none => m

/-- `ResultProcessor.process_file` on the mutable `ScanResults` state:
the extraction outcome and the text content are inputs. -/
def process_file (file_path : String) (su : Option String)
    (res : ExtractionResultL) (text : Option String)
    (st : ScanResultsL) : ScanResultsL :=
  match res.success, res.metadata with
  | true, some m =>
    let m1 := apply_source_url su m
    let m2 := enrich_metadata text m1
    { st with documents := st.documents ++ [m2] }
  | _, _ =>
    { st with failed := st.failed ++ [(file_path, orUnknown res.error)] }

/-! ### The email *shape* (full-string match of the email pattern), used to
state what `extract_emails` guarantees about its output -/

/-- Full-string match of `[A-Za-z0-9.-]+\.[A-Z|a-z]{2,}` : some split point
`k ≥ 1` has all-domain characters before it, a literal dot at it, and a
TLD run of length ≥ 2 covering the remainder. -/
def domTailShape (r : List Char) : Bool :=
  (List.range r.length).any (fun k =>
    decide (1 ≤ k) && (r.take k).all isDom && headIs '.' (r.drop k) &&
    (r.drop (k + 1)).all isTld && decide (2 ≤ (r.drop (k + 1)).length))

/-- Full-string match of the email pattern
`[A-Za-z0-9._%+-]+@[A-Za-z0-9.-]+\.[A-Z|a-z]{2,}`. -/
def isEmailShape (e : List Char) : Bool :=
  !(e.takeWhile isLcl).isEmpty && headIs '@' (e.dropWhile isLcl) &&
  domTailShape ((e.dropWhile isLcl).drop 1)

/-! ### Basic lemmas about the helpers -/

theorem lexLe_total (a b : List Char) : lexLe a b = true ∨ lexLe b a = true := by
  induction a generalizing b with
  | nil => left; rfl
  | cons c a' ih =>
    cases b with
    | nil => right; rfl
    | cons d b' =>
      by_cases hcd : c = d
      · subst hcd
        rcases ih b' with h | h
        · left; simpa [lexLe] using h
        · right; simpa [lexLe] using h
      · rcases lt_or_gt_of_ne hcd with h | h
        · left; simp [lexLe, hcd, h]
        · right
          have hdc : d ≠ c := fun hh => hcd hh.symm
          simp [lexLe, hdc, h]

theorem lexLe_trans {a b c : List Char} (hab : lexLe a b = true)
    (hbc : lexLe b c = true) : lexLe a c = true := by
  induction a generalizing b c with
  | nil => rfl
  | cons x a' ih =>
    cases b with
    | nil => simp [lexLe] at hab
    | cons y b' =>
      cases c with
      | nil => simp [lexLe] at hbc
      | cons z c' =>
        by_cases hxy : x = y
        · subst hxy
          by_cases hyz : x = z
          · subst hyz
            simp [lexLe] at hab hbc ⊢
            exact ih hab hbc
          · simp [lexLe, hyz] at hbc ⊢
            exact hbc
        · by_cases hyz : y = z
          · subst hyz
            simp [lexLe, hxy] at hab ⊢
            exact hab
          · simp only [lexLe, if_neg hxy, decide_eq_true_eq] at hab
            simp only [lexLe, if_neg hyz, decide_eq_true_eq] at hbc
            by_cases hxz : x = z
            · subst hxz
              exact absurd (lt_trans hab hbc) (lt_irrefl x)
            · simp only [lexLe, if_neg hxz, decide_eq_true_eq]
              exact lt_trans hab hbc

theorem mem_insLe {x y : List Char} {l : List (List Char)} :
    y ∈ insLe x l ↔ y = x ∨ y ∈ l := by
  induction l with
  | nil => simp [insLe]
  | cons z zs ih =>
    by_cases h : lexLe x z = true
    · simp [insLe, h]
    · simp [insLe, h, ih]
      tauto

theorem mem_sortLex {x : List Char} {l : List (List Char)} :
    x ∈ sortLex l ↔ x ∈ l := by
  induction l with
  | nil => simp [sortLex]
  | cons y ys ih => simp [sortLex, mem_insLe, ih]

theorem sortLex_sorted (l : List (List Char)) :
    (sortLex l).Pairwise (fun a b => lexLe a b = true) := by
  induction l with
  | nil => simp [sortLex]
  | cons x xs ih =>
    simp only [sortLex]
    -- insertion preserves sortedness
    have key : ∀ (m : List (List Char)),
        m.Pairwise (fun a b => lexLe a b = true) →
        (insLe x m).Pairwise (fun a b => lexLe a b = true) := by
      intro m
      induction m with
      | nil => intro _; simp [insLe]
      | cons y ys ihm =>
        intro hp
        rcases List.pairwise_cons.1 hp with ⟨hy, hys⟩
        by_cases h : lexLe x y = true
        · simp only [insLe, if_pos h]
          refine List.pairwise_cons.2 ⟨?_, hp⟩
          intro z hz
          rcases List.mem_cons.1 hz with hz | hz
          · subst hz; exact h
          · exact lexLe_trans h (hy z hz)
        · simp only [insLe, if_neg h]
          refine List.pairwise_cons.2 ⟨?_, ihm hys⟩
          intro z hz
          rw [mem_insLe] at hz
          rcases hz with hz | hz
          · rcases lexLe_total x y with h' | h'
            · exact absurd h' h
            · rw [hz]; exact h'
          · exact hy z hz
    exact key (sortLex xs) ih

theorem nodup_insLe {x : List Char} {l : List (List Char)}
    (hx : x ∉ l) (hl : l.Nodup) : (insLe x l).Nodup := by
  induction l with
  | nil => simp [insLe]
  | cons y ys ih =>
    rcases List.nodup_cons.1 hl with ⟨hy, hys⟩
    by_cases h : lexLe x y = true
    · simp only [insLe, h, if_pos]
      exact List.nodup_cons.2 ⟨hx, hl⟩
    · simp only [insLe, h]
      simp only [Bool.false_eq_true, if_false]
      refine List.nodup_cons.2 ⟨?_, ?_⟩
      · rw [mem_insLe]
        rintro (rfl | hmem)
        · exact hx (List.mem_cons_self _ _)
        · exact hy hmem
      · exact ih (fun hm => hx (List.mem_cons_of_mem _ hm)) hys

theorem nodup_sortLex {l : List (List Char)} (h : l.Nodup) :
    (sortLex l).Nodup := by
  induction l with
  | nil => simp [sortLex]
  | cons x xs ih =>
    rcases List.nodup_cons.1 h with ⟨hx, hxs⟩
    exact nodup_insLe (fun hm => hx (mem_sortLex.1 hm)) (ih hxs)

theorem nodup_insAbsent {acc : List (List Char)} {x : List Char}
    (h : acc.Nodup) : (insAbsent acc x).Nodup := by
  unfold insAbsent
  by_cases hx : x ∈ acc
  · simp [hx, h]
  · simp [hx]
    exact List.Nodup.append h (List.nodup_singleton x) (by simpa using hx)

theorem mem_insAbsent {acc : List (List Char)} {x y : List Char} :
    y ∈ insAbsent acc x ↔ y ∈ acc ∨ y = x := by
  unfold insAbsent
  by_cases hx : x ∈ acc
  · simp [hx]
    intro hy; subst hy; exact hx
  · simp [hx]

theorem nodup_dedupKF_aux (l : List (List Char)) :
    ∀ acc : List (List Char), acc.Nodup → (l.foldl insAbsent acc).Nodup := by
  induction l with
  | nil => intro acc h; simpa using h
  | cons x xs ih =>
    intro acc h
    exact ih (insAbsent acc x) (nodup_insAbsent h)

theorem nodup_dedupKF (l : List (List Char)) : (dedupKF l).Nodup :=
  nodup_dedupKF_aux l [] List.nodup_nil

theorem mem_foldl_insAbsent (l : List (List Char)) :
    ∀ (acc : List (List Char)) (y : List Char),
      y ∈ l.foldl insAbsent acc ↔ y ∈ acc ∨ y ∈ l := by
  induction l with
  | nil => intro acc y; simp
  | cons x xs ih =>
    intro acc y
    rw [List.foldl_cons, ih]
    rw [mem_insAbsent]
    simp
    tauto

theorem mem_dedupKF {l : List (List Char)} {y : List Char} :
    y ∈ dedupKF l ↔ y ∈ l := by
  unfold dedupKF
  rw [mem_foldl_insAbsent]
  simp


/-! ### Soundness of the scanner and the email matcher -/

theorem scanM_sound (f : Bool → List Char → Option Nat) :
    ∀ (fuel : Nat) (w : Bool) (l m : List Char), m ∈ scanM f fuel w l →
      ∃ w' l' n, f w' l' = some n ∧ m = l'.take n := by
  intro fuel
  induction fuel with
  | zero => intro w l m h; simp [scanM] at h
  | succ fuel ih =>
    intro w l m h
    cases l with
    | nil => simp [scanM] at h
    | cons c cs =>
      simp only [scanM] at h
      cases hf : f w (c :: cs) with
      | some n =>
        rw [hf] at h
        rcases List.mem_cons.1 h with h1 | h1
        · exact ⟨w, c :: cs, n, hf, h1⟩
        · exact ih _ _ _ h1
      | none =>
        rw [hf] at h
        exact ih _ _ _ h

theorem tailGo_sound {trun m : List Char} :
    ∀ {j t : Nat}, tailGo trun m j = some t → 2 ≤ t ∧ t ≤ j := by
  intro j
  induction j with
  | zero => intro t h; simp [tailGo] at h
  | succ j ih =>
    intro t h
    simp only [tailGo] at h
    by_cases hc : (2 ≤ j + 1 &&
        (lastIsWord (trun.take (j + 1)) != headIsWord (m.drop (j + 1)))) = true
    · rw [if_pos hc] at h
      rw [Bool.and_eq_true] at hc
      rcases hc with ⟨h2, _⟩
      cases h
      exact ⟨by simpa using h2, le_refl _⟩
    · rw [if_neg hc] at h
      rcases ih h with ⟨h2, h3⟩
      exact ⟨h2, Nat.le_succ_of_le h3⟩

theorem tailTry_sound {m : List Char} {t : Nat} (h : tailTry m = some t) :
    2 ≤ t ∧ t ≤ (m.takeWhile isTld).length :=
  tailGo_sound h

theorem domGo_sound {drun aft : List Char} :
    ∀ {j : Nat} {k t : Nat}, domGo drun aft j = some (k, t) →
      1 ≤ k ∧ k ≤ j ∧ headIs '.' (drun.drop k ++ aft) = true ∧
        tailTry (drun.drop (k + 1) ++ aft) = some t := by
  intro j
  induction j with
  | zero => intro k t h; simp [domGo] at h
  | succ j ih =>
    intro k t h
    simp only [domGo] at h
    by_cases hc : headIs '.' (drun.drop (j + 1) ++ aft) = true
    · rw [if_pos hc] at h
      cases htt : tailTry (drun.drop (j + 2) ++ aft) with
      | some t' =>
        rw [htt] at h
        injection h with h'
        injection h' with hk ht
        subst hk; subst ht
        exact ⟨Nat.succ_le_succ (Nat.zero_le _), le_refl _, hc, htt⟩
      | none =>
        rw [htt] at h
        rcases ih h with ⟨h1, h2, h3, h4⟩
        exact ⟨h1, Nat.le_succ_of_le h2, h3, h4⟩
    · rw [if_neg hc] at h
      rcases ih h with ⟨h1, h2, h3, h4⟩
      exact ⟨h1, Nat.le_succ_of_le h2, h3, h4⟩

/-! ### Character-level facts about `pyLower` -/

theorem char_le_toNat {a b : Char} : a ≤ b ↔ a.toNat ≤ b.toNat := by
  rw [Char.le_def]
  exact Iff.rfl

theorem char_decide_le_true {a c : Char} (h : a.toNat ≤ c.toNat) :
    (decide (a ≤ c)) = true :=
  decide_eq_true (char_le_toNat.2 h)

theorem char_decide_le_false {a c : Char} (h : c.toNat < a.toNat) :
    (decide (a ≤ c)) = false :=
  decide_eq_false (fun hle => absurd (char_le_toNat.1 hle) (by omega))

theorem pyLower_toNat_of_upper {c : Char} (h : isUpperAZ c = true) :
    (pyLower c).toNat = c.toNat + 32 := by
  unfold pyLower
  rw [if_pos h]
  have hb : c.toNat ≤ 90 := by
    rw [isUpperAZ, Bool.and_eq_true] at h
    have := char_le_toNat.1 (of_decide_eq_true h.2)
    simpa using this
  have hv : c.toNat + 32 < 55296 := by omega
  unfold Char.ofNat
  rw [dif_pos (Or.inl hv)]
  rfl

theorem pyLower_of_not_upper {c : Char} (h : isUpperAZ c = false) :
    pyLower c = c := by
  unfold pyLower
  rw [if_neg (by simp [h])]

theorem upper_bounds {c : Char} (h : isUpperAZ c = true) :
    65 ≤ c.toNat ∧ c.toNat ≤ 90 := by
  rw [isUpperAZ, Bool.and_eq_true] at h
  have h1 := char_le_toNat.1 (of_decide_eq_true h.1)
  have h2 := char_le_toNat.1 (of_decide_eq_true h.2)
  exact ⟨by simpa using h1, by simpa using h2⟩

theorem pyLower_lower_of_upper {c : Char} (h : isUpperAZ c = true) :
    isLowerAZ (pyLower c) = true := by
  rcases upper_bounds h with ⟨h1, h2⟩
  have ht := pyLower_toNat_of_upper h
  unfold isLowerAZ
  rw [Bool.and_eq_true]
  refine ⟨char_decide_le_true ?_, char_decide_le_true ?_⟩
  · show (97 : Nat) ≤ (pyLower c).toNat
    omega
  · show (pyLower c).toNat ≤ 122
    omega

theorem pyLower_not_upper {c : Char} : isUpperAZ (pyLower c) = false := by
  by_cases h : isUpperAZ c = true
  · have ht := pyLower_toNat_of_upper h
    rcases upper_bounds h with ⟨h1, h2⟩
    unfold isUpperAZ
    have : (decide (pyLower c ≤ 'Z')) = false := by
      apply char_decide_le_false
      show Char.toNat 'Z' < _
      show 90 < (pyLower c).toNat
      omega
    rw [this, Bool.and_false]
  · rw [pyLower_of_not_upper (by simpa using h)]
    simpa using h

theorem isAlphaAZ_pyLower {c : Char} : isAlphaAZ (pyLower c) = isAlphaAZ c := by
  by_cases h : isUpperAZ c = true
  · unfold isAlphaAZ
    rw [pyLower_not_upper, pyLower_lower_of_upper h, h]
    simp
  · rw [pyLower_of_not_upper (by simpa using h)]

theorem isDigit09_pyLower {c : Char} : isDigit09 (pyLower c) = isDigit09 c := by
  by_cases h : isUpperAZ c = true
  · have ht := pyLower_toNat_of_upper h
    rcases upper_bounds h with ⟨h1, h2⟩
    unfold isDigit09
    have l2 : (decide (c ≤ '9')) = false := by
      apply char_decide_le_false
      show Char.toNat '9' < _
      show 57 < c.toNat
      omega
    have l4 : (decide (pyLower c ≤ '9')) = false := by
      apply char_decide_le_false
      show Char.toNat '9' < _
      show 57 < (pyLower c).toNat
      omega
    rw [l2, l4, Bool.and_false, Bool.and_false]
  · rw [pyLower_of_not_upper (by simpa using h)]

theorem isAlnum_pyLower {c : Char} : isAlnum (pyLower c) = isAlnum c := by
  unfold isAlnum
  rw [isAlphaAZ_pyLower, isDigit09_pyLower]

theorem pyLower_eq_symbol {c a : Char} (ha : isAlphaAZ a = false) :
    (decide (pyLower c = a)) = (decide (c = a)) := by
  rw [decide_eq_decide]
  by_cases h : isUpperAZ c = true
  · have hl := pyLower_lower_of_upper h
    constructor
    · intro he
      exfalso
      rw [he] at hl
      unfold isAlphaAZ at ha
      rw [Bool.or_eq_false_iff] at ha
      rw [ha.2] at hl
      exact Bool.false_ne_true hl
    · intro he
      exfalso
      rw [he] at h
      unfold isAlphaAZ at ha
      rw [Bool.or_eq_false_iff] at ha
      rw [ha.1] at h
      exact Bool.false_ne_true h
  · rw [pyLower_of_not_upper (by simpa using h)]

theorem isLcl_pyLower {c : Char} : isLcl (pyLower c) = isLcl c := by
  unfold isLcl
  rw [isAlnum_pyLower,
    pyLower_eq_symbol (a := '.') (by decide),
    pyLower_eq_symbol (a := '_') (by decide),
    pyLower_eq_symbol (a := '%') (by decide),
    pyLower_eq_symbol (a := '+') (by decide),
    pyLower_eq_symbol (a := '-') (by decide)]

theorem isDom_pyLower {c : Char} : isDom (pyLower c) = isDom c := by
  unfold isDom
  rw [isAlnum_pyLower,
    pyLower_eq_symbol (a := '.') (by decide),
    pyLower_eq_symbol (a := '-') (by decide)]

theorem isTld_pyLower {c : Char} : isTld (pyLower c) = isTld c := by
  unfold isTld
  rw [isAlphaAZ_pyLower, pyLower_eq_symbol (a := '|') (by decide)]

theorem pyLower_idem {c : Char} : pyLower (pyLower c) = pyLower c :=
  pyLower_of_not_upper pyLower_not_upper

/-! ### Structure of email matches -/

theorem takeWhile_all_append {p : Char → Bool} {xs : List Char} {y : Char}
    {r : List Char} (hxs : ∀ x ∈ xs, p x = true) (hy : p y = false) :
    (xs ++ y :: r).takeWhile p = xs := by
  induction xs with
  | nil => simp [List.takeWhile, hy]
  | cons a as ih =>
    have ha : p a = true := hxs a (List.mem_cons_self _ _)
    simp only [List.cons_append, List.takeWhile, ha, List.append_eq]
    rw [ih (fun x hx => hxs x (List.mem_cons_of_mem _ hx))]

theorem dropWhile_all_append {p : Char → Bool} {xs : List Char} {y : Char}
    {r : List Char} (hxs : ∀ x ∈ xs, p x = true) (hy : p y = false) :
    (xs ++ y :: r).dropWhile p = y :: r := by
  induction xs with
  | nil => simp [List.dropWhile, hy]
  | cons a as ih =>
    have ha : p a = true := hxs a (List.mem_cons_self _ _)
    simp only [List.cons_append, List.dropWhile, ha]
    exact ih (fun x hx => hxs x (List.mem_cons_of_mem _ hx))

theorem all_map_pyLower {p : Char → Bool} {l : List Char}
    (hcl : ∀ c : Char, p (pyLower c) = p c) (h : ∀ x ∈ l, p x = true) :
    ∀ x ∈ l.map pyLower, p x = true := by
  intro x hx
  rcases List.mem_map.1 hx with ⟨c, hc, rfl⟩
  rw [hcl]
  exact h c hc

theorem all_take_of_takeWhile {p : Char → Bool} {l : List Char} {k : Nat}
    (hk : k ≤ (l.takeWhile p).length) :
    ∀ x ∈ l.take k, p x = true := by
  intro x hx
  have h1 : l.take k = (l.takeWhile p).take k := by
    rcases (List.takeWhile_prefix (l := l) p) with ⟨w, hw⟩
    conv_lhs => rw [← hw]
    rw [List.take_append_of_le_length hk]
  rw [h1] at hx
  exact List.mem_takeWhile_imp ((List.take_prefix k _).sublist.subset hx)

theorem matchEmail_shape {w : Bool} {l : List Char} {n : Nat}
    (h : matchEmail w l = some n) :
    isEmailShape ((l.take n).map pyLower) = true := by
  unfold matchEmail at h
  by_cases h1 : (l.takeWhile isLcl).isEmpty
  · rw [if_pos h1] at h; cases h
  rw [if_neg h1] at h
  by_cases h2 : (w == headIsWord l) = true
  · rw [if_pos h2] at h; cases h
  rw [if_neg h2] at h
  by_cases h3 : headIs '@' (l.dropWhile isLcl) = true
  swap
  · rw [if_neg h3] at h; cases h
  rw [if_pos h3] at h
  simp only at h
  set r2 := (l.dropWhile isLcl).tail with hr2
  set drun := r2.takeWhile isDom with hdrun
  set aft := r2.dropWhile isDom with haft
  cases hdg : domGo drun aft drun.length with
  | none => rw [hdg] at h; cases h
  | some kt =>
    rw [hdg] at h
    obtain ⟨k, t⟩ := kt
    injection h with hn
    rcases domGo_sound hdg with ⟨hk1, hkd, hdot, htt⟩
    rcases tailTry_sound htt with ⟨ht2, htw⟩
    -- k is strictly below the domain run length
    have hklt : k < drun.length := by
      rcases Nat.lt_or_ge k drun.length with hlt | hge
      · exact hlt
      · exfalso
        have hdk : drun.drop k = [] := List.drop_eq_nil_of_le hge
        rw [hdk] at hdot
        simp only [List.nil_append] at hdot
        cases haftc : aft with
        | nil => rw [haftc] at hdot; simp [headIs] at hdot
        | cons c cs =>
          rw [haftc] at hdot
          simp only [headIs] at hdot
          have hnd := List.head?_dropWhile_not isDom r2
          rw [← haft, haftc] at hnd
          simp only [List.head?] at hnd
          rw [of_decide_eq_true hdot] at hnd
          exact absurd hnd (by decide)
    -- decompositions
    have hl : l = l.takeWhile isLcl ++ ('@' :: r2) := by
      cases hr1 : l.dropWhile isLcl with
      | nil => rw [hr1] at h3; simp [headIs] at h3
      | cons c cs =>
        rw [hr1] at h3
        simp only [headIs] at h3
        have := List.takeWhile_append_dropWhile (p := isLcl) (l := l)
        rw [hr1] at this
        rw [hr2, hr1]
        simp only [List.tail_cons]
        rw [← of_decide_eq_true h3]
        exact this.symm
    have hr2eq : r2 = drun ++ aft :=
      (List.takeWhile_append_dropWhile (p := isDom) (l := r2)).symm
    have hloc : ∀ x ∈ l.takeWhile isLcl, isLcl x = true :=
      fun x hx => List.mem_takeWhile_imp hx
    -- the tail run facts
    have hm' : r2.drop (k + 1) = drun.drop (k + 1) ++ aft := by
      rw [hr2eq]
      exact List.drop_append_of_le_length hklt
    have hrk : r2.drop k = drun.drop k ++ aft := by
      rw [hr2eq]
      exact List.drop_append_of_le_length hkd
    have hdotr : r2.drop k = '.' :: r2.drop (k + 1) := by
      cases hdk : drun.drop k ++ aft with
      | nil => rw [hdk] at hdot; simp [headIs] at hdot
      | cons c cs =>
        rw [hdk] at hdot
        simp only [headIs] at hdot
        rw [hrk, hdk, of_decide_eq_true hdot]
        have : cs = (r2.drop k).tail := by rw [hrk, hdk]; rfl
        rw [this, List.tail_drop]
    -- length bookkeeping
    have hr2len : k + 1 + t ≤ r2.length := by
      have h1 : (r2.drop (k+1)).length = r2.length - (k+1) := List.length_drop _ _
      have h2 : t ≤ (r2.drop (k+1)).length := by
        rw [hm']
        calc t ≤ ((drun.drop (k+1) ++ aft).takeWhile isTld).length := htw
        _ ≤ (drun.drop (k+1) ++ aft).length :=
          (List.takeWhile_prefix _).length_le
      have h3 : k + 1 ≤ r2.length := by
        rw [hr2eq, List.length_append]
        omega
      omega
    set mid := r2.take (k + 1 + t) with hmid
    have hmidlen : mid.length = k + 1 + t := by
      rw [hmid, List.length_take]
      omega
    -- l.take n = loc ++ '@' :: mid
    have htake : l.take n = l.takeWhile isLcl ++ '@' :: mid := by
      have hn' : n = (l.takeWhile isLcl).length + (1 + (k + 1 + t)) := by omega
      conv_lhs => rw [hl]
      rw [hn', List.take_append]
      congr 1
      show List.take (1 + (k + 1 + t)) ('@' :: r2) = '@' :: mid
      have hc : 1 + (k + 1 + t) = (k + 1 + t) + 1 := by omega
      rw [hc]
      rfl
    -- components of the mapped decomposition
    have hmapat : pyLower '@' = '@' := by decide
    have hmap : (l.take n).map pyLower =
        (l.takeWhile isLcl).map pyLower ++ '@' :: mid.map pyLower := by
      rw [htake, List.map_append, List.map_cons, hmapat]
    -- takeWhile / dropWhile on the mapped list
    have hlocall : ∀ x ∈ (l.takeWhile isLcl).map pyLower, isLcl x = true :=
      all_map_pyLower (fun c => isLcl_pyLower) hloc
    have hatn : isLcl '@' = false := by decide
    have htw2 : ((l.take n).map pyLower).takeWhile isLcl =
        (l.takeWhile isLcl).map pyLower := by
      rw [hmap]; exact takeWhile_all_append hlocall hatn
    have hdw2 : ((l.take n).map pyLower).dropWhile isLcl =
        '@' :: mid.map pyLower := by
      rw [hmap]; exact dropWhile_all_append hlocall hatn
    unfold isEmailShape
    rw [htw2, hdw2]
    simp only [List.drop_succ_cons, List.drop_zero]
    have hne : ((l.takeWhile isLcl).map pyLower).isEmpty = false := by
      cases hc : l.takeWhile isLcl with
      | nil => rw [hc] at h1; exact absurd rfl h1
      | cons a as => rfl

    rw [hne]
    simp only [Bool.not_false, Bool.true_and, headIs, decide_True,
      Bool.true_and]
    -- the domain/TLD shape with witness k
    unfold domTailShape
    rw [List.any_eq_true]
    refine ⟨k, List.mem_range.2 ?_, ?_⟩
    · rw [List.length_map, hmidlen]; omega
    have hmtk : (mid.map pyLower).take k = (drun.take k).map pyLower := by
      rw [← List.map_take]
      congr 1
      rw [hmid, List.take_take]
      have : min k (k + 1 + t) = k := by omega
      rw [this, hr2eq, List.take_append_of_le_length hkd]
    have hmdk : (mid.map pyLower).drop k =
        '.' :: ((r2.drop (k+1)).take t).map pyLower := by
      rw [← List.map_drop]
      rw [hmid, List.drop_take, hdotr]
      have : k + 1 + t - k = t + 1 := by omega
      rw [this]
      rw [List.take_succ_cons]
      rw [List.map_cons]
      congr 1
    have hmdk1 : (mid.map pyLower).drop (k + 1) =
        ((r2.drop (k+1)).take t).map pyLower := by
      have := congrArg List.tail hmdk
      rw [List.tail_drop] at this
      simpa using this
    have htpart : ∀ x ∈ (r2.drop (k+1)).take t, isTld x = true := by
      rw [hm']
      exact all_take_of_takeWhile htw
    have htlen : ((r2.drop (k+1)).take t).length = t := by
      rw [List.length_take]
      have h1 : (r2.drop (k+1)).length = r2.length - (k+1) := List.length_drop _ _
      omega
    rw [Bool.and_eq_true, Bool.and_eq_true, Bool.and_eq_true, Bool.and_eq_true]
    refine ⟨⟨⟨⟨?_, ?_⟩, ?_⟩, ?_⟩, ?_⟩
    · exact decide_eq_true hk1
    · rw [hmtk, List.all_eq_true]
      refine all_map_pyLower (fun c => isDom_pyLower) ?_
      intro x hx
      exact List.mem_takeWhile_imp ((List.take_prefix k drun).sublist.subset hx)
    · rw [hmdk]; rfl
    · rw [hmdk1, List.all_eq_true]
      exact all_map_pyLower (fun c => isTld_pyLower) htpart
    · rw [hmdk1, List.length_map, htlen]
      exact decide_eq_true ht2

/-! ### Locality of the matchers across a space separator

None of the regex character classes accept a space, so a match attempted at
a position inside `xs` behaves identically on `xs` and on `xs ++ ' ' :: ys`:
a whitespace-separated concatenation scans as the concatenation of the
scans.  These lemmas prove that per matcher. -/

theorem takeWhile_sep {p : Char → Bool} (hp : p ' ' = false)
    (xs ys : List Char) :
    (xs ++ ' ' :: ys).takeWhile p = xs.takeWhile p := by
  induction xs with
  | nil => simp [List.takeWhile, hp]
  | cons a as ih =>
    simp only [List.cons_append, List.takeWhile]
    cases hpa : p a
    · rfl
    · rw [List.append_eq, ih]

theorem dropWhile_sep {p : Char → Bool} (hp : p ' ' = false)
    (xs ys : List Char) :
    (xs ++ ' ' :: ys).dropWhile p = xs.dropWhile p ++ ' ' :: ys := by
  induction xs with
  | nil => simp [List.dropWhile, hp]
  | cons a as ih =>
    simp only [List.cons_append, List.dropWhile]
    cases hpa : p a
    · simp
    · simpa using ih

theorem headIs_sep {c : Char} (hc : c ≠ ' ') (zs ys : List Char) :
    headIs c (zs ++ ' ' :: ys) = headIs c zs := by
  cases zs with
  | nil =>
    simp only [List.nil_append, headIs]
    exact decide_eq_false (fun h => hc h.symm)
  | cons a as => rfl

theorem headP_sep {p : Char → Bool} (hp : p ' ' = false) (zs ys : List Char) :
    headP p (zs ++ ' ' :: ys) = headP p zs := by
  cases zs with
  | nil => simpa [headP] using hp
  | cons a as => rfl

theorem headIsWord_sep (zs ys : List Char) :
    headIsWord (zs ++ ' ' :: ys) = headIsWord zs := by
  cases zs with
  | nil => rfl
  | cons a as => rfl

/-! ### Fuel-irrelevance and decomposition of the scanner -/

theorem scanM_fuel {f : Bool → List Char → Option Nat}
    (hA : ∀ w l n, f w l = some n → 1 ≤ n ∧ n ≤ l.length) :
    ∀ (fuel fuel' : Nat) (w : Bool) (l : List Char),
      l.length ≤ fuel → l.length ≤ fuel' →
      scanM f fuel w l = scanM f fuel' w l := by
  intro fuel
  induction fuel with
  | zero =>
    intro fuel' w l h h'
    have : l = [] := List.eq_nil_of_length_eq_zero (Nat.le_zero.1 h)
    subst this
    cases fuel' <;> rfl
  | succ fuel ih =>
    intro fuel' w l h h'
    cases l with
    | nil => cases fuel' <;> rfl
    | cons c cs =>
      cases fuel' with
      | zero => exact absurd h' (by simp)
      | succ g =>
        cases hf : f w (c :: cs) with
        | some n =>
          rcases hA w (c :: cs) n hf with ⟨hn1, hn2⟩
          have hlen : ((c :: cs).drop n).length ≤ fuel := by
            rw [List.length_drop]
            simp only [List.length_cons] at h ⊢
            omega
          have hlen' : ((c :: cs).drop n).length ≤ g := by
            rw [List.length_drop]
            simp only [List.length_cons] at h' ⊢
            omega
          simp only [scanM, hf]
          rw [ih g (lastIsWord ((c :: cs).take n)) ((c :: cs).drop n) hlen hlen']
        | none =>
          have hlen : cs.length ≤ fuel := by
            simp only [List.length_cons] at h
            omega
          have hlen' : cs.length ≤ g := by
            simp only [List.length_cons] at h'
            omega
          simp only [scanM, hf]
          rw [ih g (isWord c) cs hlen hlen']

theorem scanM_append {f : Bool → List Char → Option Nat}
    (hA : ∀ w l n, f w l = some n → 1 ≤ n ∧ n ≤ l.length)
    (hB : ∀ w xs ys, f w (xs ++ ' ' :: ys) = f w xs) :
    ∀ (fuel : Nat) (a b : List Char) (w : Bool),
      (a ++ ' ' :: b).length ≤ fuel →
      scanM f fuel w (a ++ ' ' :: b) =
        scanM f a.length w a ++ scanM f b.length false b := by
  intro fuel
  induction fuel with
  | zero =>
    intro a b w h
    exfalso
    rw [List.length_append, List.length_cons] at h
    omega
  | succ fuel ih =>
    intro a b w h
    cases a with
    | nil =>
      simp only [List.nil_append] at h ⊢
      simp only [scanM]
      have hsep : f w (' ' :: b) = none := by
        have h1 := hB w [] b
        simp only [List.nil_append] at h1
        rw [h1]
        cases hf : f w [] with
        | none => rfl
        | some n =>
          rcases hA w [] n hf with ⟨h1', h2'⟩
          simp at h2'
          omega
      rw [hsep]
      have hw : isWord ' ' = false := by decide
      rw [hw]
      have : b.length ≤ fuel := by
        simp only [List.length_cons] at h
        omega
      exact scanM_fuel hA fuel b.length false b this (le_refl _)
    | cons c cs =>
      have hfx := hB w (c :: cs) b
      cases hf : f w (c :: cs) with
      | some n =>
        rcases hA w (c :: cs) n hf with ⟨hn1, hn2⟩
        have hEf : f w (c :: (cs ++ ' ' :: b)) = some n := by
          rw [← List.cons_append, hfx, hf]
        have htk : ((c :: cs) ++ ' ' :: b).take n = (c :: cs).take n :=
          List.take_append_of_le_length hn2
        have hdr : ((c :: cs) ++ ' ' :: b).drop n =
            (c :: cs).drop n ++ ' ' :: b :=
          List.drop_append_of_le_length hn2
        have hlen : ((c :: cs).drop n ++ ' ' :: b).length ≤ fuel := by
          rw [List.length_append, List.length_drop]
          rw [List.length_append] at h
          simp only [List.length_cons] at h ⊢
          omega
        have hrec := ih ((c :: cs).drop n) b
          (lastIsWord ((c :: cs).take n)) hlen
        have hfeq : scanM f ((c :: cs).drop n).length
              (lastIsWord ((c :: cs).take n)) ((c :: cs).drop n) =
            scanM f cs.length (lastIsWord ((c :: cs).take n))
              ((c :: cs).drop n) := by
          apply scanM_fuel hA
          · exact le_refl _
          · rw [List.length_drop]; simp only [List.length_cons]; omega
        calc scanM f (fuel + 1) w ((c :: cs) ++ ' ' :: b)
            = (c :: (cs ++ ' ' :: b)).take n ::
                scanM f fuel (lastIsWord ((c :: (cs ++ ' ' :: b)).take n))
                  ((c :: (cs ++ ' ' :: b)).drop n) := by
              rw [List.cons_append]
              simp only [scanM, hEf]
          _ = (c :: cs).take n ::
                scanM f fuel (lastIsWord ((c :: cs).take n))
                  ((c :: cs).drop n ++ ' ' :: b) := by
              rw [← List.cons_append, htk, hdr]
          _ = (c :: cs).take n ::
                (scanM f ((c :: cs).drop n).length
                    (lastIsWord ((c :: cs).take n)) ((c :: cs).drop n) ++
                  scanM f b.length false b) := by
              rw [hrec]
          _ = scanM f (c :: cs).length w (c :: cs) ++
                scanM f b.length false b := by
              rw [hfeq]
              simp only [List.length_cons, scanM, hf, List.cons_append]
      | none =>
        have hEf : f w (c :: (cs ++ ' ' :: b)) = none := by
          rw [← List.cons_append, hfx, hf]
        have hlen : (cs ++ ' ' :: b).length ≤ fuel := by
          rw [List.length_append] at h ⊢
          simp only [List.length_cons] at h ⊢
          omega
        calc scanM f (fuel + 1) w ((c :: cs) ++ ' ' :: b)
            = scanM f fuel (isWord c) (cs ++ ' ' :: b) := by
              rw [List.cons_append]
              simp only [scanM, hEf]
          _ = scanM f cs.length (isWord c) cs ++
                scanM f b.length false b := ih cs b (isWord c) hlen
          _ = scanM f (c :: cs).length w (c :: cs) ++
                scanM f b.length false b := by
              simp only [List.length_cons, scanM, hf]

/-! ### Soundness and locality of the email matcher -/

theorem matchEmail_sound {w : Bool} {l : List Char} {n : Nat}
    (h : matchEmail w l = some n) : 1 ≤ n ∧ n ≤ l.length := by
  unfold matchEmail at h
  by_cases h1 : (l.takeWhile isLcl).isEmpty
  · rw [if_pos h1] at h; cases h
  rw [if_neg h1] at h
  by_cases h2 : (w == headIsWord l) = true
  · rw [if_pos h2] at h; cases h
  rw [if_neg h2] at h
  by_cases h3 : headIs '@' (l.dropWhile isLcl) = true
  swap
  · rw [if_neg h3] at h; cases h
  rw [if_pos h3] at h
  simp only at h
  set r2 := (l.dropWhile isLcl).tail with hr2
  set drun := r2.takeWhile isDom with hdrun
  set aft := r2.dropWhile isDom with haft
  cases hdg : domGo drun aft drun.length with
  | none => rw [hdg] at h; cases h
  | some kt =>
    rw [hdg] at h
    obtain ⟨k, t⟩ := kt
    injection h with hn
    rcases domGo_sound hdg with ⟨hk1, hkd, hdot, htt⟩
    rcases tailTry_sound htt with ⟨ht2, htw⟩
    have hklt : k < drun.length := by
      rcases Nat.lt_or_ge k drun.length with hlt | hge
      · exact hlt
      · exfalso
        have hdk : drun.drop k = [] := List.drop_eq_nil_of_le hge
        rw [hdk] at hdot
        simp only [List.nil_append] at hdot
        cases haftc : aft with
        | nil => rw [haftc] at hdot; simp [headIs] at hdot
        | cons c cs =>
          rw [haftc] at hdot
          simp only [headIs] at hdot
          have hnd := List.head?_dropWhile_not isDom r2
          rw [← haft, haftc] at hnd
          simp only [List.head?] at hnd
          rw [of_decide_eq_true hdot] at hnd
          exact absurd hnd (by decide)
    have hl : l = l.takeWhile isLcl ++ ('@' :: r2) := by
      cases hr1 : l.dropWhile isLcl with
      | nil => rw [hr1] at h3; simp [headIs] at h3
      | cons c cs =>
        rw [hr1] at h3
        simp only [headIs] at h3
        have hx := List.takeWhile_append_dropWhile (p := isLcl) (l := l)
        rw [hr1] at hx
        rw [hr2, hr1]
        simp only [List.tail_cons]
        rw [← of_decide_eq_true h3]
        exact hx.symm
    have hr2eq : r2 = drun ++ aft :=
      (List.takeWhile_append_dropWhile (p := isDom) (l := r2)).symm
    have hm' : r2.drop (k + 1) = drun.drop (k + 1) ++ aft := by
      rw [hr2eq]
      exact List.drop_append_of_le_length hklt
    have hr2len : k + 1 + t ≤ r2.length := by
      have ha : (r2.drop (k+1)).length = r2.length - (k+1) := List.length_drop _ _
      have hb : t ≤ (r2.drop (k+1)).length := by
        rw [hm']
        calc t ≤ ((drun.drop (k+1) ++ aft).takeWhile isTld).length := htw
        _ ≤ (drun.drop (k+1) ++ aft).length :=
          (List.takeWhile_prefix _).length_le
      have hc : k + 1 ≤ r2.length := by
        rw [hr2eq, List.length_append]
        omega
      omega
    have hll : l.length = (l.takeWhile isLcl).length + 1 + r2.length := by
      conv_lhs => rw [hl]
      rw [List.length_append, List.length_cons]
      omega
    omega

theorem tailGo_loc {trun m ys : List Char} :
    ∀ {j : Nat}, j ≤ m.length →
      tailGo trun (m ++ ' ' :: ys) j = tailGo trun m j := by
  intro j
  induction j with
  | zero => intro _; rfl
  | succ j ih =>
    intro hj
    simp only [tailGo]
    have hdr : (m ++ ' ' :: ys).drop (j + 1) = m.drop (j + 1) ++ ' ' :: ys :=
      List.drop_append_of_le_length hj
    rw [hdr, headIsWord_sep]
    rw [ih (Nat.le_of_succ_le hj)]

theorem tailTry_loc (m ys : List Char) :
    tailTry (m ++ ' ' :: ys) = tailTry m := by
  unfold tailTry
  have htld : isTld ' ' = false := by decide
  rw [takeWhile_sep htld]
  exact tailGo_loc (List.takeWhile_prefix _).length_le

theorem domGo_loc {drun aft ys : List Char} :
    ∀ (j : Nat), domGo drun (aft ++ ' ' :: ys) j = domGo drun aft j := by
  intro j
  induction j with
  | zero => rfl
  | succ j ih =>
    simp only [domGo]
    rw [← List.append_assoc, ← List.append_assoc]
    rw [headIs_sep (by decide), tailTry_loc]
    rw [ih]

theorem matchEmail_loc (w : Bool) (xs ys : List Char) :
    matchEmail w (xs ++ ' ' :: ys) = matchEmail w xs := by
  unfold matchEmail
  dsimp only
  have hlcl : isLcl ' ' = false := by decide
  have hdom : isDom ' ' = false := by decide
  rw [takeWhile_sep hlcl, dropWhile_sep hlcl, headIsWord_sep,
    headIs_sep (by decide)]
  by_cases h1 : (xs.takeWhile isLcl).isEmpty
  · rw [if_pos h1, if_pos h1]
  rw [if_neg h1, if_neg h1]
  by_cases h2 : (w == headIsWord xs) = true
  · rw [if_pos h2, if_pos h2]
  rw [if_neg h2, if_neg h2]
  by_cases h3 : headIs '@' (xs.dropWhile isLcl) = true
  swap
  · rw [if_neg h3, if_neg h3]
  rw [if_pos h3, if_pos h3]
  cases hr1 : xs.dropWhile isLcl with
  | nil => rw [hr1] at h3; simp [headIs] at h3
  | cons c r2x =>
    simp only [List.cons_append, List.tail_cons]
    rw [takeWhile_sep hdom, dropWhile_sep hdom, domGo_loc]

/-! ### Soundness and locality of the URL matcher -/

theorem matchLit_length {tpl : List Char} :
    ∀ {l rest : List Char}, matchLit tpl l = some rest →
      l.length = tpl.length + rest.length := by
  induction tpl with
  | nil =>
    intro l rest h
    simp only [matchLit] at h
    cases h
    simp
  | cons c tpl' ih =>
    intro l rest h
    cases l with
    | nil => simp [matchLit] at h
    | cons d l' =>
      simp only [matchLit] at h
      by_cases hc : chEqCI d c = true
      · rw [if_pos hc] at h
        have := ih h
        simp only [List.length_cons]
        omega
      · rw [if_neg hc] at h; cases h

theorem matchLit_sep {tpl : List Char}
    (htpl : ∀ c ∈ tpl, chEqCI ' ' c = false) :
    ∀ (xs ys : List Char),
      matchLit tpl (xs ++ ' ' :: ys) =
        (matchLit tpl xs).map (fun r => r ++ ' ' :: ys) := by
  induction tpl with
  | nil => intro xs ys; rfl
  | cons c tpl' ih =>
    intro xs ys
    cases xs with
    | nil =>
      simp only [List.nil_append, matchLit]
      rw [if_neg (by rw [htpl c (List.mem_cons_self _ _)]; exact Bool.false_ne_true)]
      rfl
    | cons d xs' =>
      simp only [List.cons_append, matchLit]
      by_cases hc : chEqCI d c = true
      · rw [if_pos hc, if_pos hc]
        exact ih (fun x hx => htpl x (List.mem_cons_of_mem _ hx)) xs' ys
      · rw [if_neg hc, if_neg hc]
        rfl

theorem matchUrl_sound {w : Bool} {l : List Char} {n : Nat}
    (h : matchUrl w l = some n) : 1 ≤ n ∧ n ≤ l.length := by
  unfold matchUrl at h
  cases h8 : matchLit ('h' :: 't' :: 't' :: 'p' :: 's' :: ':' :: '/' :: '/' :: []) l with
  | some rest =>
    rw [h8] at h
    simp only at h
    have hlen := matchLit_length h8
    by_cases hr : (rest.takeWhile isUrlCh).isEmpty
    · rw [if_pos hr] at h; cases h
    · rw [if_neg hr] at h
      injection h with hn
      have : (rest.takeWhile isUrlCh).length ≤ rest.length :=
        (List.takeWhile_prefix _).length_le
      simp only [List.length_cons, List.length_nil] at hlen
      omega
  | none =>
    rw [h8] at h
    simp only at h
    cases h7 : matchLit ('h' :: 't' :: 't' :: 'p' :: ':' :: '/' :: '/' :: []) l with
    | some rest =>
      rw [h7] at h
      simp only at h
      have hlen := matchLit_length h7
      by_cases hr : (rest.takeWhile isUrlCh).isEmpty
      · rw [if_pos hr] at h; cases h
      · rw [if_neg hr] at h
        injection h with hn
        have : (rest.takeWhile isUrlCh).length ≤ rest.length :=
          (List.takeWhile_prefix _).length_le
        simp only [List.length_cons, List.length_nil] at hlen
        omega
    | none => rw [h7] at h; cases h

theorem matchUrl_loc (w : Bool) (xs ys : List Char) :
    matchUrl w (xs ++ ' ' :: ys) = matchUrl w xs := by
  unfold matchUrl
  have hurl : isUrlCh ' ' = false := by decide
  rw [matchLit_sep (by decide), matchLit_sep (by decide)]
  cases h8 : matchLit ('h' :: 't' :: 't' :: 'p' :: 's' :: ':' :: '/' :: '/' :: []) xs with
  | some rest =>
    simp only [Option.map]
    rw [takeWhile_sep hurl]
  | none =>
    simp only [Option.map]
    cases h7 : matchLit ('h' :: 't' :: 't' :: 'p' :: ':' :: '/' :: '/' :: []) xs with
    | some rest =>
      simp only [Option.map]
      rw [takeWhile_sep hurl]
    | none => simp only [Option.map]

/-! ### Generic chain lemmas (hostname labels, unix segments) -/

theorem takeWhile_lt_of_dropWhile_cons {p : Char → Bool} {l : List Char}
    {c : Char} {cs : List Char} (h : l.dropWhile p = c :: cs) :
    (l.takeWhile p).length < l.length := by
  have hx := List.takeWhile_append_dropWhile (p := p) (l := l)
  rw [h] at hx
  have := congrArg List.length hx
  rw [List.length_append, List.length_cons] at this
  omega

theorem chainPos_fuel {step : List Char → Option Nat}
    (hs : ∀ l d, step l = some d → 1 ≤ d ∧ d ≤ l.length) :
    ∀ (fuel fuel' : Nat) (l : List Char) (pos : Nat),
      l.length - pos ≤ fuel → l.length - pos ≤ fuel' →
      chainPos step fuel l pos = chainPos step fuel' l pos := by
  intro fuel
  induction fuel with
  | zero =>
    intro fuel' l pos h h'
    have hd : l.drop pos = [] := List.drop_eq_nil_of_le (by omega)
    have hn : step (l.drop pos) = none := by
      rw [hd]
      cases hsn : step [] with
      | none => rfl
      | some d =>
        rcases hs [] d hsn with ⟨h1, h2⟩
        simp at h2
        omega
    cases fuel' with
    | zero => rfl
    | succ g => simp only [chainPos, hn]
  | succ fuel ih =>
    intro fuel' l pos h h'
    cases hsn : step (l.drop pos) with
    | none =>
      cases fuel' with
      | zero =>
        have hd : l.drop pos = [] := List.drop_eq_nil_of_le (by omega)
        simp only [chainPos, hsn]
      | succ g => simp only [chainPos, hsn]
    | some d =>
      rcases hs _ d hsn with ⟨h1, h2⟩
      rw [List.length_drop] at h2
      cases fuel' with
      | zero =>
        exfalso
        have hd : l.length - pos = 0 := Nat.le_zero.1 h'
        have : l.drop pos = [] := List.drop_eq_nil_of_le (by omega)
        rw [this] at hsn
        rcases hs [] d hsn with ⟨ha, hb⟩
        simp at hb
        omega
      | succ g =>
        simp only [chainPos, hsn]
        rw [ih g l (pos + d) (by omega) (by omega)]

theorem chainPos_loc {step : List Char → Option Nat}
    (hs : ∀ l d, step l = some d → 1 ≤ d ∧ d ≤ l.length)
    (hloc : ∀ zs ys, step (zs ++ ' ' :: ys) = step zs) (ys : List Char) :
    ∀ (fuel : Nat) (xs : List Char) (pos : Nat), pos ≤ xs.length →
      chainPos step fuel (xs ++ ' ' :: ys) pos = chainPos step fuel xs pos := by
  intro fuel
  induction fuel with
  | zero => intro xs pos _; rfl
  | succ fuel ih =>
    intro xs pos hpos
    have hdr : (xs ++ ' ' :: ys).drop pos = xs.drop pos ++ ' ' :: ys :=
      List.drop_append_of_le_length hpos
    cases hsn : step (xs.drop pos) with
    | none => simp only [chainPos, hdr, hloc, hsn]
    | some d =>
      rcases hs _ d hsn with ⟨h1, h2⟩
      rw [List.length_drop] at h2
      simp only [chainPos, hdr, hloc, hsn]
      rw [ih xs (pos + d) (by omega)]

theorem chainPos_le {step : List Char → Option Nat}
    (hs : ∀ l d, step l = some d → 1 ≤ d ∧ d ≤ l.length) :
    ∀ (fuel : Nat) (l : List Char) (pos : Nat), pos ≤ l.length →
      ∀ q ∈ chainPos step fuel l pos, q ≤ l.length := by
  intro fuel
  induction fuel with
  | zero => intro l pos _ q hq; simp [chainPos] at hq
  | succ fuel ih =>
    intro l pos hpos q hq
    simp only [chainPos] at hq
    cases hsn : step (l.drop pos) with
    | none => rw [hsn] at hq; simp at hq
    | some d =>
      rw [hsn] at hq
      rcases hs _ d hsn with ⟨h1, h2⟩
      rw [List.length_drop] at h2
      rcases List.mem_cons.1 hq with hq | hq
      · omega
      · exact ih l (pos + d) (by omega) q hq

/-! ### Soundness and locality of the hostname matcher -/

theorem labelStep_sound {l : List Char} {d : Nat}
    (h : labelStep l = some d) : 1 ≤ d ∧ d ≤ l.length := by
  cases l with
  | nil => simp [labelStep] at h
  | cons c rest =>
    simp only [labelStep] at h
    by_cases hc : isAlnum c = true
    · rw [if_pos hc] at h
      by_cases hcond : (headIs '.' (rest.dropWhile isHy) &&
          ((rest.takeWhile isHy).isEmpty ||
            ((rest.takeWhile isHy).length ≤ 62 &&
              lastIsWord (rest.takeWhile isHy)))) = true
      · rw [if_pos hcond] at h
        injection h with hd
        rw [Bool.and_eq_true] at hcond
        have hdot := hcond.1
        have hlt : (rest.takeWhile isHy).length < rest.length := by
          cases hdw : rest.dropWhile isHy with
          | nil => rw [hdw] at hdot; simp [headIs] at hdot
          | cons a as => exact takeWhile_lt_of_dropWhile_cons hdw
        simp only [List.length_cons]
        omega
      · rw [if_neg hcond] at h; cases h
    · rw [if_neg hc] at h; cases h

theorem labelStep_loc (zs ys : List Char) :
    labelStep (zs ++ ' ' :: ys) = labelStep zs := by
  cases zs with
  | nil =>
    have hws : isAlnum ' ' = false := by decide
    simp [labelStep, hws]
  | cons c rest =>
    simp only [List.cons_append, labelStep]
    have hhy : isHy ' ' = false := by decide
    rw [takeWhile_sep hhy, dropWhile_sep hhy, headIs_sep (by decide)]

theorem hostTail_sound {l : List Char} {p t : Nat}
    (h : hostTail l p = some t) : 1 ≤ t ∧ p + t ≤ l.length := by
  unfold hostTail at h
  simp only at h
  by_cases hc : (2 ≤ ((l.drop p).takeWhile isAlphaAZ).length &&
      !headIsWord (((l.drop p)).drop ((l.drop p).takeWhile isAlphaAZ).length)) = true
  · rw [if_pos hc] at h
    injection h with ht
    rw [Bool.and_eq_true] at hc
    have h2 : 2 ≤ ((l.drop p).takeWhile isAlphaAZ).length := by
      simpa using hc.1
    have h3 : ((l.drop p).takeWhile isAlphaAZ).length ≤ (l.drop p).length :=
      (List.takeWhile_prefix _).length_le
    rw [List.length_drop] at h3
    omega
  · rw [if_neg hc] at h; cases h

theorem hostTail_loc {xs : List Char} (ys : List Char) {p : Nat}
    (hp : p ≤ xs.length) : hostTail (xs ++ ' ' :: ys) p = hostTail xs p := by
  unfold hostTail
  dsimp only
  have hdr : (xs ++ ' ' :: ys).drop p = xs.drop p ++ ' ' :: ys :=
    List.drop_append_of_le_length hp
  have hal : isAlphaAZ ' ' = false := by decide
  rw [hdr, takeWhile_sep hal]
  have htl : ((xs.drop p).takeWhile isAlphaAZ).length ≤ (xs.drop p).length :=
    (List.takeWhile_prefix _).length_le
  have hdd : (xs.drop p ++ ' ' :: ys).drop
      ((xs.drop p).takeWhile isAlphaAZ).length =
      (xs.drop p).drop ((xs.drop p).takeWhile isAlphaAZ).length ++ ' ' :: ys :=
    List.drop_append_of_le_length htl
  rw [hdd, headIsWord_sep]

theorem hostGo_sound {l : List Char} :
    ∀ {ps : List Nat} {n : Nat}, hostGo l ps = some n →
      (∀ p ∈ ps, p ≤ l.length) → 1 ≤ n ∧ n ≤ l.length := by
  intro ps
  induction ps with
  | nil => intro n h _; cases h
  | cons p ps ih =>
    intro n h hb
    simp only [hostGo] at h
    cases ht : hostTail l p with
    | some t =>
      rw [ht] at h
      injection h with hn
      rcases hostTail_sound ht with ⟨h1, h2⟩
      omega
    | none =>
      rw [ht] at h
      exact ih h (fun q hq => hb q (List.mem_cons_of_mem _ hq))

theorem hostGo_loc {xs ys : List Char} :
    ∀ {ps : List Nat}, (∀ p ∈ ps, p ≤ xs.length) →
      hostGo (xs ++ ' ' :: ys) ps = hostGo xs ps := by
  intro ps
  induction ps with
  | nil => intro _; rfl
  | cons p ps ih =>
    intro hb
    simp only [hostGo]
    rw [hostTail_loc ys (hb p (List.mem_cons_self _ _))]
    cases ht : hostTail xs p with
    | some t => rfl
    | none => exact ih (fun q hq => hb q (List.mem_cons_of_mem _ hq))

theorem matchHost_sound {w : Bool} {l : List Char} {n : Nat}
    (h : matchHost w l = some n) : 1 ≤ n ∧ n ≤ l.length := by
  unfold matchHost at h
  by_cases hc : (headP isAlnum l && !w) = true
  · rw [if_pos hc] at h
    refine hostGo_sound h ?_
    intro p hp
    rw [List.mem_reverse] at hp
    exact chainPos_le (fun l d hd => labelStep_sound hd) l.length l 0
      (Nat.zero_le _) p hp
  · rw [if_neg hc] at h; cases h

theorem matchHost_loc (w : Bool) (xs ys : List Char) :
    matchHost w (xs ++ ' ' :: ys) = matchHost w xs := by
  unfold matchHost
  have hal : isAlnum ' ' = false := by decide
  rw [headP_sep hal]
  by_cases hc : (headP isAlnum xs && !w) = true
  swap
  · rw [if_neg hc, if_neg hc]
  rw [if_pos hc, if_pos hc]
  unfold labelChain
  have hstep : ∀ l d, labelStep l = some d → 1 ≤ d ∧ d ≤ l.length :=
    fun l d hd => labelStep_sound hd
  have hchain : chainPos labelStep (xs ++ ' ' :: ys).length (xs ++ ' ' :: ys) 0 =
      chainPos labelStep xs.length xs 0 := by
    rw [chainPos_loc hstep labelStep_loc ys _ xs 0 (Nat.zero_le _)]
    exact chainPos_fuel hstep _ _ xs 0
      (by rw [List.length_append]; omega) (by omega)
  rw [hchain]
  apply hostGo_loc
  intro p hp
  rw [List.mem_reverse] at hp
  exact chainPos_le hstep xs.length xs 0 (Nat.zero_le _) p hp

/-! ### Soundness and locality of the path matchers -/

theorem segStep_sound {l : List Char} {d : Nat}
    (h : segStep l = some d) : 1 ≤ d ∧ d ≤ l.length := by
  unfold segStep at h
  dsimp only at h
  by_cases he : (l.takeWhile isSegCh).isEmpty = true
  · rw [if_pos he] at h; cases h
  rw [if_neg he] at h
  by_cases hs : headIs '/' (l.dropWhile isSegCh) = true
  · rw [if_pos hs] at h
    injection h with hd
    have hlt : (l.takeWhile isSegCh).length < l.length := by
      cases hdw : l.dropWhile isSegCh with
      | nil => rw [hdw] at hs; simp [headIs] at hs
      | cons a as => exact takeWhile_lt_of_dropWhile_cons hdw
    omega
  · rw [if_neg hs] at h; cases h

theorem segStep_loc (zs ys : List Char) :
    segStep (zs ++ ' ' :: ys) = segStep zs := by
  unfold segStep
  have hsg : isSegCh ' ' = false := by decide
  rw [takeWhile_sep hsg, dropWhile_sep hsg, headIs_sep (by decide)]

theorem unixGo_sound {l : List Char} :
    ∀ {ps : List Nat} {n : Nat}, unixGo l ps = some n →
      (∀ p ∈ ps, p ≤ l.length) → 1 ≤ n ∧ n ≤ l.length := by
  intro ps
  induction ps with
  | nil => intro n h _; cases h
  | cons p ps ih =>
    intro n h hb
    simp only [unixGo] at h
    by_cases he : ((l.drop p).takeWhile isPathCh).isEmpty = true
    · rw [if_pos he] at h
      exact ih h (fun q hq => hb q (List.mem_cons_of_mem _ hq))
    · rw [if_neg he] at h
      injection h with hn
      have h1 : ((l.drop p).takeWhile isPathCh).length ≤ (l.drop p).length :=
        (List.takeWhile_prefix _).length_le
      rw [List.length_drop] at h1
      have h2 : 1 ≤ ((l.drop p).takeWhile isPathCh).length := by
        cases hc : (l.drop p).takeWhile isPathCh with
        | nil => rw [hc] at he; exact absurd rfl he
        | cons a as => simp
      have hp := hb p (List.mem_cons_self _ _)
      omega

theorem unixGo_loc {xs ys : List Char} :
    ∀ {ps : List Nat}, (∀ p ∈ ps, p ≤ xs.length) →
      unixGo (xs ++ ' ' :: ys) ps = unixGo xs ps := by
  intro ps
  induction ps with
  | nil => intro _; rfl
  | cons p ps ih =>
    intro hb
    simp only [unixGo]
    have hdr : (xs ++ ' ' :: ys).drop p = xs.drop p ++ ' ' :: ys :=
      List.drop_append_of_le_length (hb p (List.mem_cons_self _ _))
    have hpc : isPathCh ' ' = false := by decide
    rw [hdr, takeWhile_sep hpc]
    by_cases he : ((xs.drop p).takeWhile isPathCh).isEmpty = true
    · rw [if_pos he, if_pos he]
      exact ih (fun q hq => hb q (List.mem_cons_of_mem _ hq))
    · rw [if_neg he, if_neg he]

theorem matchUnix_sound {w : Bool} {l : List Char} {n : Nat}
    (h : matchUnix w l = some n) : 1 ≤ n ∧ n ≤ l.length := by
  cases l with
  | nil => simp [matchUnix] at h
  | cons c rest =>
    simp only [matchUnix] at h
    by_cases hc : c = '/'
    swap
    · rw [if_neg (by simpa using hc)] at h; cases h
    rw [if_pos (by simpa using hc)] at h
    have hstep : ∀ l d, segStep l = some d → 1 ≤ d ∧ d ≤ l.length :=
      fun l d hd => segStep_sound hd
    have hbound : ∀ p ∈ (segChain rest.length rest 0).reverse,
        p ≤ rest.length := by
      intro p hp
      rw [List.mem_reverse] at hp
      exact chainPos_le hstep rest.length rest 0 (Nat.zero_le _) p hp
    cases hch : (segChain rest.length rest 0).reverse with
    | nil => rw [hch] at h; dsimp only at h; cases h
    | cons p ps =>
      rw [hch] at h
      dsimp only at h
      cases hgo : unixGo rest (p :: ps) with
      | none => rw [hgo] at h; cases h
      | some m =>
        rw [hgo] at h
        injection h with hn
        rcases unixGo_sound hgo (hch ▸ hbound) with ⟨h1, h2⟩
        simp only [List.length_cons]
        omega

theorem matchUnix_loc (w : Bool) (xs ys : List Char) :
    matchUnix w (xs ++ ' ' :: ys) = matchUnix w xs := by
  cases xs with
  | nil =>
    show matchUnix w (' ' :: ys) = matchUnix w []
    simp [matchUnix]
  | cons c rest =>
    simp only [List.cons_append]
    simp only [matchUnix]
    by_cases hc : c = '/'
    swap
    · rw [if_neg (by simpa using hc), if_neg (by simpa using hc)]
    rw [if_pos (by simpa using hc), if_pos (by simpa using hc)]
    have hstep : ∀ l d, segStep l = some d → 1 ≤ d ∧ d ≤ l.length :=
      fun l d hd => segStep_sound hd
    have hchain : segChain (rest ++ ' ' :: ys).length (rest ++ ' ' :: ys) 0 =
        segChain rest.length rest 0 := by
      unfold segChain
      rw [chainPos_loc hstep segStep_loc ys _ rest 0 (Nat.zero_le _)]
      exact chainPos_fuel hstep _ _ rest 0
        (by rw [List.length_append]; omega) (by omega)
    rw [hchain]
    have hbound : ∀ p ∈ (segChain rest.length rest 0).reverse,
        p ≤ rest.length := by
      intro p hp
      rw [List.mem_reverse] at hp
      exact chainPos_le hstep rest.length rest 0 (Nat.zero_le _) p hp
    cases hch : (segChain rest.length rest 0).reverse with
    | nil => rfl
    | cons p ps =>
      dsimp only
      rw [unixGo_loc (hch ▸ hbound)]

theorem matchWin_sound {w : Bool} {l : List Char} {n : Nat}
    (h : matchWin w l = some n) : 1 ≤ n ∧ n ≤ l.length := by
  unfold matchWin at h
  cases l with
  | nil => cases h
  | cons c1 l1 =>
    cases l1 with
    | nil => cases h
    | cons c2 l2 =>
      cases l2 with
      | nil => cases h
      | cons c3 rest =>
        dsimp only at h
        by_cases hc : (isAlphaAZ c1 && c2 = ':' && c3 = '\\') = true
        swap
        · rw [if_neg hc] at h; cases h
        rw [if_pos hc] at h
        by_cases he : (rest.takeWhile isPathCh).isEmpty = true
        · rw [if_pos he] at h; cases h
        · rw [if_neg he] at h
          injection h with hn
          have h1 : (rest.takeWhile isPathCh).length ≤ rest.length :=
            (List.takeWhile_prefix _).length_le
          simp only [List.length_cons]
          omega

theorem matchWin_loc (w : Bool) (xs ys : List Char) :
    matchWin w (xs ++ ' ' :: ys) = matchWin w xs := by
  have hpc : isPathCh ' ' = false := by decide
  have hsp : (decide ((' ' : Char) = ':')) = false := by decide
  have hsb : (decide ((' ' : Char) = '\\')) = false := by decide
  cases xs with
  | nil =>
    show matchWin w (' ' :: ys) = matchWin w []
    cases ys with
    | nil => rfl
    | cons y1 t1 =>
      cases t1 with
      | nil => rfl
      | cons y2 t2 =>
        unfold matchWin
        dsimp only
        rw [if_neg (by simp [isAlphaAZ, isUpperAZ, isLowerAZ])]
  | cons c1 l1 =>
    cases l1 with
    | nil =>
      show matchWin w (c1 :: ' ' :: ys) = matchWin w [c1]
      cases ys with
      | nil => rfl
      | cons y1 t1 =>
        unfold matchWin
        dsimp only
        rw [if_neg (by simp [hsp])]
    | cons c2 l2 =>
      cases l2 with
      | nil =>
        show matchWin w (c1 :: c2 :: ' ' :: ys) = matchWin w [c1, c2]
        unfold matchWin
        dsimp only
        rw [if_neg (by simp [hsb])]
      | cons c3 rest =>
        show matchWin w (c1 :: c2 :: c3 :: (rest ++ ' ' :: ys)) =
          matchWin w (c1 :: c2 :: c3 :: rest)
        unfold matchWin
        dsimp only
        rw [takeWhile_sep hpc]

theorem matchUnc_sound {w : Bool} {l : List Char} {n : Nat}
    (h : matchUnc w l = some n) : 1 ≤ n ∧ n ≤ l.length := by
  unfold matchUnc at h
  cases l with
  | nil => cases h
  | cons c1 l1 =>
    cases l1 with
    | nil => cases h
    | cons c2 rest =>
      dsimp only at h
      by_cases hc : (c1 = '\\' && c2 = '\\') = true
      swap
      · rw [if_neg hc] at h; cases h
      rw [if_pos hc] at h
      by_cases he : (rest.takeWhile isPathCh).isEmpty = true
      · rw [if_pos he] at h; cases h
      · rw [if_neg he] at h
        injection h with hn
        have h1 : (rest.takeWhile isPathCh).length ≤ rest.length :=
          (List.takeWhile_prefix _).length_le
        simp only [List.length_cons]
        omega

theorem matchUnc_loc (w : Bool) (xs ys : List Char) :
    matchUnc w (xs ++ ' ' :: ys) = matchUnc w xs := by
  have hpc : isPathCh ' ' = false := by decide
  have hsb : (decide ((' ' : Char) = '\\')) = false := by decide
  cases xs with
  | nil =>
    show matchUnc w (' ' :: ys) = matchUnc w []
    cases ys with
    | nil => rfl
    | cons y1 t1 =>
      unfold matchUnc
      dsimp only
      rw [if_neg (by simp [hsb])]
  | cons c1 l1 =>
    cases l1 with
    | nil =>
      show matchUnc w (c1 :: ' ' :: ys) = matchUnc w [c1]
      unfold matchUnc
      dsimp only
      rw [if_neg (by simp [hsb])]
    | cons c2 rest =>
      show matchUnc w (c1 :: c2 :: (rest ++ ' ' :: ys)) =
        matchUnc w (c1 :: c2 :: rest)
      unfold matchUnc
      dsimp only
      rw [takeWhile_sep hpc]

/-! ### Membership characterisations of the four miners -/

theorem append_sep_data (a b : String) :
    (a ++ " " ++ b).data = a.data ++ ' ' :: b.data := by
  rw [String.data_append, String.data_append]
  rw [show (" " : String).data = [' '] from rfl]
  rw [List.append_assoc]
  rfl

theorem append_sep_not_empty (xs ys : List Char) :
    (xs ++ ' ' :: ys).isEmpty = false := by
  cases xs <;> rfl

theorem mem_extract_emails_iff {s : String} {e : String} :
    e ∈ extract_emails s ↔
      ∃ l, l ∈ ((scanM matchEmail s.data.length false s.data).map
          (fun m => m.map pyLower)).filter emailKeep ∧ e = String.mk l := by
  unfold extract_emails
  by_cases hemp : s.data.isEmpty = true
  · rw [if_pos hemp]
    have hnil : s.data = [] := by
      cases hd : s.data with
      | nil => rfl
      | cons c cs => rw [hd] at hemp; cases hemp
    rw [hnil]
    simp [scanM]
  · rw [if_neg hemp]
    constructor
    · intro he
      rcases List.mem_map.1 he with ⟨l, hl, rfl⟩
      exact ⟨l, mem_dedupKF.1 (mem_sortLex.1 hl), rfl⟩
    · rintro ⟨l, hl, rfl⟩
      exact List.mem_map.2 ⟨l, mem_sortLex.2 (mem_dedupKF.2 hl), rfl⟩

theorem mem_extract_urls_iff {s : String} {e : String} :
    e ∈ extract_urls s ↔
      ∃ l, l ∈ ((scanM matchUrl s.data.length false s.data).map
          stripPunct).filter (fun u => !u.isEmpty) ∧ e = String.mk l := by
  unfold extract_urls
  by_cases hemp : s.data.isEmpty = true
  · rw [if_pos hemp]
    have hnil : s.data = [] := by
      cases hd : s.data with
      | nil => rfl
      | cons c cs => rw [hd] at hemp; cases hemp
    rw [hnil]
    simp [scanM]
  · rw [if_neg hemp]
    constructor
    · intro he
      rcases List.mem_map.1 he with ⟨l, hl, rfl⟩
      exact ⟨l, mem_dedupKF.1 (mem_sortLex.1 hl), rfl⟩
    · rintro ⟨l, hl, rfl⟩
      exact List.mem_map.2 ⟨l, mem_sortLex.2 (mem_dedupKF.2 hl), rfl⟩

theorem mem_extract_hostnames_iff {s : String} {domain : Option String}
    {e : String} :
    e ∈ extract_hostnames s domain ↔
      ∃ l, l ∈ ((scanM matchHost s.data.length false s.data).map
          (fun m => m.map pyLower)).filter (fun h =>
            if FALSE_TLDS.any (fun ext => ext.isSuffixOf h) then false
            else
              match domain with
              | some d => if d.data.isEmpty then true
                          else (d.data.map pyLower).isSuffixOf h
              | none => true) ∧ e = String.mk l := by
  unfold extract_hostnames
  by_cases hemp : s.data.isEmpty = true
  · rw [if_pos hemp]
    have hnil : s.data = [] := by
      cases hd : s.data with
      | nil => rfl
      | cons c cs => rw [hd] at hemp; cases hemp
    rw [hnil]
    simp [scanM]
  · rw [if_neg hemp]
    constructor
    · intro he
      rcases List.mem_map.1 he with ⟨l, hl, rfl⟩
      exact ⟨l, mem_dedupKF.1 (mem_sortLex.1 hl), rfl⟩
    · rintro ⟨l, hl, rfl⟩
      exact List.mem_map.2 ⟨l, mem_sortLex.2 (mem_dedupKF.2 hl), rfl⟩

theorem mem_extract_paths_iff {s : String} {e : String} :
    e ∈ extract_paths s ↔
      ∃ l, l ∈ (((scanM matchWin s.data.length false s.data).map stripPunct
            |>.filter (fun p => !p.isEmpty)) ++
          ((scanM matchUnix s.data.length false s.data).map stripPunct
            |>.filter (fun p => !p.isEmpty && 3 < p.length)) ++
          ((scanM matchUnc s.data.length false s.data).map stripPunct
            |>.filter (fun p => !p.isEmpty))) ∧ e = String.mk l := by
  unfold extract_paths
  by_cases hemp : s.data.isEmpty = true
  · rw [if_pos hemp]
    have hnil : s.data = [] := by
      cases hd : s.data with
      | nil => rfl
      | cons c cs => rw [hd] at hemp; cases hemp
    rw [hnil]
    simp [scanM]
  · rw [if_neg hemp]
    constructor
    · intro he
      rcases List.mem_map.1 he with ⟨l, hl, rfl⟩
      exact ⟨l, mem_dedupKF.1 (mem_sortLex.1 hl), rfl⟩
    · rintro ⟨l, hl, rfl⟩
      exact List.mem_map.2 ⟨l, mem_sortLex.2 (mem_dedupKF.2 hl), rfl⟩

/-! ### C4: concatenation and the miners -/

/-- C4 counterexample: concatenating `"a@test.co"` and `"m"` (no separator)
merges the match into `a@test.com`, whose domain is blacklisted, so the
result on the concatenation (the empty list) is **not** a superset of the
union of the results on the chunks, and is even a proper subset of it. -/
theorem miner_concat_superset_cex :
    "a@test.co" ∈ extract_emails "a@test.co" ∧
    extract_emails ("a@test.co" ++ "m") = [] ∧
    "a@test.co" ∉ extract_emails ("a@test.co" ++ "m") := by decide

/-- C4 amended: for chunks that are separated by whitespace in the
concatenation (joined with `" "`), each of the four Text Miner functions
returns on the joined text a superset of the union of the values returned
on each chunk. -/
theorem miner_concat_space_superset (a b : String) (domain : Option String) :
    (∀ e : String, e ∈ extract_emails a ∨ e ∈ extract_emails b →
        e ∈ extract_emails (a ++ " " ++ b)) ∧
    (∀ e : String, e ∈ extract_urls a ∨ e ∈ extract_urls b →
        e ∈ extract_urls (a ++ " " ++ b)) ∧
    (∀ e : String, e ∈ extract_hostnames a domain ∨
        e ∈ extract_hostnames b domain →
        e ∈ extract_hostnames (a ++ " " ++ b) domain) ∧
    (∀ e : String, e ∈ extract_paths a ∨ e ∈ extract_paths b →
        e ∈ extract_paths (a ++ " " ++ b)) := by
  have hdata := append_sep_data a b
  have hlenJ : (a.data ++ ' ' :: b.data).length =
      (a.data ++ ' ' :: b.data).length := rfl
  refine ⟨?_, ?_, ?_, ?_⟩
  · -- emails
    intro e he
    have hscan : scanM matchEmail (a ++ " " ++ b).data.length false
        (a ++ " " ++ b).data =
        scanM matchEmail a.data.length false a.data ++
          scanM matchEmail b.data.length false b.data := by
      rw [hdata]
      exact scanM_append (fun w l n h => matchEmail_sound h)
        matchEmail_loc _ a.data b.data false (le_refl _)
    rw [mem_extract_emails_iff]
    rw [hscan]
    rcases he with he | he
    · rcases mem_extract_emails_iff.1 he with ⟨l, hl, rfl⟩
      rcases List.mem_filter.1 hl with ⟨hl1, hl2⟩
      exact ⟨l, List.mem_filter.2
        ⟨by rw [List.map_append]; exact List.mem_append.2 (Or.inl hl1), hl2⟩,
        rfl⟩
    · rcases mem_extract_emails_iff.1 he with ⟨l, hl, rfl⟩
      rcases List.mem_filter.1 hl with ⟨hl1, hl2⟩
      exact ⟨l, List.mem_filter.2
        ⟨by rw [List.map_append]; exact List.mem_append.2 (Or.inr hl1), hl2⟩,
        rfl⟩
  · -- urls
    intro e he
    have hscan : scanM matchUrl (a ++ " " ++ b).data.length false
        (a ++ " " ++ b).data =
        scanM matchUrl a.data.length false a.data ++
          scanM matchUrl b.data.length false b.data := by
      rw [hdata]
      exact scanM_append (fun w l n h => matchUrl_sound h)
        matchUrl_loc _ a.data b.data false (le_refl _)
    rw [mem_extract_urls_iff]
    rw [hscan]
    rcases he with he | he
    · rcases mem_extract_urls_iff.1 he with ⟨l, hl, rfl⟩
      rcases List.mem_filter.1 hl with ⟨hl1, hl2⟩
      exact ⟨l, List.mem_filter.2
        ⟨by rw [List.map_append]; exact List.mem_append.2 (Or.inl hl1), hl2⟩,
        rfl⟩
    · rcases mem_extract_urls_iff.1 he with ⟨l, hl, rfl⟩
      rcases List.mem_filter.1 hl with ⟨hl1, hl2⟩
      exact ⟨l, List.mem_filter.2
        ⟨by rw [List.map_append]; exact List.mem_append.2 (Or.inr hl1), hl2⟩,
        rfl⟩
  · -- hostnames
    intro e he
    have hscan : scanM matchHost (a ++ " " ++ b).data.length false
        (a ++ " " ++ b).data =
        scanM matchHost a.data.length false a.data ++
          scanM matchHost b.data.length false b.data := by
      rw [hdata]
      exact scanM_append (fun w l n h => matchHost_sound h)
        matchHost_loc _ a.data b.data false (le_refl _)
    rw [mem_extract_hostnames_iff]
    rw [hscan]
    rcases he with he | he
    · rcases mem_extract_hostnames_iff.1 he with ⟨l, hl, rfl⟩
      rcases List.mem_filter.1 hl with ⟨hl1, hl2⟩
      exact ⟨l, List.mem_filter.2
        ⟨by rw [List.map_append]; exact List.mem_append.2 (Or.inl hl1), hl2⟩,
        rfl⟩
    · rcases mem_extract_hostnames_iff.1 he with ⟨l, hl, rfl⟩
      rcases List.mem_filter.1 hl with ⟨hl1, hl2⟩
      exact ⟨l, List.mem_filter.2
        ⟨by rw [List.map_append]; exact List.mem_append.2 (Or.inr hl1), hl2⟩,
        rfl⟩
  · -- paths
    intro e he
    have hwin : scanM matchWin (a ++ " " ++ b).data.length false
        (a ++ " " ++ b).data =
        scanM matchWin a.data.length false a.data ++
          scanM matchWin b.data.length false b.data := by
      rw [hdata]
      exact scanM_append (fun w l n h => matchWin_sound h)
        matchWin_loc _ a.data b.data false (le_refl _)
    have hunix : scanM matchUnix (a ++ " " ++ b).data.length false
        (a ++ " " ++ b).data =
        scanM matchUnix a.data.length false a.data ++
          scanM matchUnix b.data.length false b.data := by
      rw [hdata]
      exact scanM_append (fun w l n h => matchUnix_sound h)
        matchUnix_loc _ a.data b.data false (le_refl _)
    have hunc : scanM matchUnc (a ++ " " ++ b).data.length false
        (a ++ " " ++ b).data =
        scanM matchUnc a.data.length false a.data ++
          scanM matchUnc b.data.length false b.data := by
      rw [hdata]
      exact scanM_append (fun w l n h => matchUnc_sound h)
        matchUnc_loc _ a.data b.data false (le_refl _)
    rw [mem_extract_paths_iff, hwin, hunix, hunc]
    have step : ∀ (s : String) (l : List Char),
        (l ∈ ((scanM matchWin s.data.length false s.data).map stripPunct
            |>.filter (fun p => !p.isEmpty)) ++
          ((scanM matchUnix s.data.length false s.data).map stripPunct
            |>.filter (fun p => !p.isEmpty && 3 < p.length)) ++
          ((scanM matchUnc s.data.length false s.data).map stripPunct
            |>.filter (fun p => !p.isEmpty))) →
        (l ∈ ((scanM matchWin a.data.length false a.data ++
              scanM matchWin b.data.length false b.data).map stripPunct
            |>.filter (fun p => !p.isEmpty)) ++
          ((scanM matchUnix a.data.length false a.data ++
              scanM matchUnix b.data.length false b.data).map stripPunct
            |>.filter (fun p => !p.isEmpty && 3 < p.length)) ++
          ((scanM matchUnc a.data.length false a.data ++
              scanM matchUnc b.data.length false b.data).map stripPunct
            |>.filter (fun p => !p.isEmpty))) → True := fun _ _ _ _ => trivial
    clear step
    rcases he with he | he
    · rcases mem_extract_paths_iff.1 he with ⟨l, hl, rfl⟩
      refine ⟨l, ?_, rfl⟩
      rw [List.map_append, List.map_append, List.map_append,
        List.filter_append, List.filter_append, List.filter_append]
      rcases List.mem_append.1 hl with hl | hl
      · rcases List.mem_append.1 hl with hl | hl
        · exact List.mem_append.2 (Or.inl (List.mem_append.2 (Or.inl
            (List.mem_append.2 (Or.inl hl)))))
        · exact List.mem_append.2 (Or.inl (List.mem_append.2 (Or.inr
            (List.mem_append.2 (Or.inl hl)))))
      · exact List.mem_append.2 (Or.inr (List.mem_append.2 (Or.inl hl)))
    · rcases mem_extract_paths_iff.1 he with ⟨l, hl, rfl⟩
      refine ⟨l, ?_, rfl⟩
      rw [List.map_append, List.map_append, List.map_append,
        List.filter_append, List.filter_append, List.filter_append]
      rcases List.mem_append.1 hl with hl | hl
      · rcases List.mem_append.1 hl with hl | hl
        · exact List.mem_append.2 (Or.inl (List.mem_append.2 (Or.inl
            (List.mem_append.2 (Or.inr hl)))))
        · exact List.mem_append.2 (Or.inl (List.mem_append.2 (Or.inr
            (List.mem_append.2 (Or.inr hl)))))
      · exact List.mem_append.2 (Or.inr (List.mem_append.2 (Or.inr hl)))

/-- Witness for the amended C4 at concrete chunks: values mined from each
chunk survive in the whitespace-joined concatenation, for all four miners. -/
theorem miner_concat_space_superset_witness :
    "u@v.com" ∈ extract_emails ("u@v.com /p/q/r" ++ " " ++ "http://h.io x.co.uk") ∧
    "http://h.io" ∈ extract_urls ("u@v.com /p/q/r" ++ " " ++ "http://h.io x.co.uk") ∧
    "x.co.uk" ∈ extract_hostnames ("u@v.com /p/q/r" ++ " " ++ "http://h.io x.co.uk") none ∧
    "/p/q/r" ∈ extract_paths ("u@v.com /p/q/r" ++ " " ++ "http://h.io x.co.uk") :=
  ⟨(miner_concat_space_superset "u@v.com /p/q/r" "http://h.io x.co.uk" none).1
      "u@v.com" (Or.inl (by decide)),
   (miner_concat_space_superset "u@v.com /p/q/r" "http://h.io x.co.uk" none).2.1
      "http://h.io" (Or.inr (by decide)),
   (miner_concat_space_superset "u@v.com /p/q/r" "http://h.io x.co.uk" none).2.2.1
      "x.co.uk" (Or.inr (by decide)),
   (miner_concat_space_superset "u@v.com /p/q/r" "http://h.io x.co.uk" none).2.2.2
      "/p/q/r" (Or.inl (by decide))⟩

/-! ### C3: guarantees of `extract_emails` -/

theorem string_mk_injective : Function.Injective String.mk :=
  fun a b h => by injection h

/-- C3: every value returned by `extract_emails` matches the email regex
shape, has a domain outside the placeholder blacklist, does not end in a
known non-email file extension, and is lowercase; the returned list is
sorted and duplicate-free; empty input yields the empty list. -/
theorem extract_emails_spec (text : String) :
    (∀ e ∈ extract_emails text,
        isEmailShape e.data = true ∧
        emailDomain e.data ∉ EMAIL_BLACKLIST ∧
        (∀ ext ∈ FALSE_TLDS, ext.isSuffixOf e.data = false) ∧
        e.data.map pyLower = e.data) ∧
    (extract_emails text).Pairwise (fun a b => lexLe a.data b.data = true) ∧
    (extract_emails text).Nodup ∧
    extract_emails "" = [] := by
  by_cases hemp : text.data.isEmpty = true
  · have hres : extract_emails text = [] := by
      unfold extract_emails
      rw [if_pos hemp]
    rw [hres]
    exact ⟨fun e he => absurd he (List.not_mem_nil e), List.Pairwise.nil,
      List.nodup_nil, rfl⟩
  · have hres : extract_emails text =
        (sortLex (dedupKF
          (((scanM matchEmail text.data.length false text.data).map
              (fun m => m.map pyLower)).filter emailKeep))).map
          (fun l => String.mk l) := by
      unfold extract_emails
      rw [if_neg hemp]
    refine ⟨?_, ?_, ?_, rfl⟩
    · intro e he
      rw [hres] at he
      rcases List.mem_map.1 he with ⟨l, hl, rfl⟩
      have hl3 : l ∈ ((scanM matchEmail text.data.length false text.data).map
          (fun m => m.map pyLower)).filter emailKeep :=
        mem_dedupKF.1 (mem_sortLex.1 hl)
      rcases List.mem_filter.1 hl3 with ⟨hl4, hkeep⟩
      rcases List.mem_map.1 hl4 with ⟨m, hm, rfl⟩
      rcases scanM_sound matchEmail _ _ _ _ hm with ⟨w', l', n, hmt, rfl⟩
      have hbl : emailDomain ((l'.take n).map pyLower) ∉ EMAIL_BLACKLIST := by
        intro hmem
        unfold emailKeep at hkeep
        rw [if_pos hmem] at hkeep
        exact Bool.false_ne_true hkeep
      have hany : FALSE_TLDS.any
          (fun ext => ext.isSuffixOf ((l'.take n).map pyLower)) = false := by
        by_cases hh : FALSE_TLDS.any
            (fun ext => ext.isSuffixOf ((l'.take n).map pyLower)) = true
        · unfold emailKeep at hkeep
          rw [if_neg hbl, if_pos hh] at hkeep
          exact absurd hkeep Bool.false_ne_true
        · simpa using hh
      refine ⟨matchEmail_shape hmt, hbl, ?_, ?_⟩
      · intro ext hext
        have h := List.any_eq_false.1 hany ext hext
        exact Bool.not_eq_true _ ▸ (Bool.eq_false_iff.2 h)
      · show ((l'.take n).map pyLower).map pyLower = (l'.take n).map pyLower
        rw [List.map_map]
        exact List.map_congr_left (fun a _ => pyLower_idem)
    · rw [hres, List.pairwise_map]
      exact sortLex_sorted _
    · rw [hres]
      exact (nodup_sortLex (nodup_dedupKF _)).map string_mk_injective

/-- Witness for `extract_emails_spec` at a concrete input: the text
`"Contact Bob@Corp.COM now"` yields exactly `["bob@corp.com"]`, and the
guarantees hold for that element. -/
theorem extract_emails_spec_witness :
    "bob@corp.com" ∈ extract_emails "Contact Bob@Corp.COM now" ∧
    (isEmailShape "bob@corp.com".data = true ∧
     emailDomain "bob@corp.com".data ∉ EMAIL_BLACKLIST ∧
     (∀ ext ∈ FALSE_TLDS, ext.isSuffixOf "bob@corp.com".data = false) ∧
     "bob@corp.com".data.map pyLower = "bob@corp.com".data) :=
  ⟨by decide,
   (extract_emails_spec "Contact Bob@Corp.COM now").1 "bob@corp.com"
     (by decide)⟩

/-! ### C5: every parsed search result carries a validated URL -/

theorem foldl_all {α β : Type} (P : α → Prop) (f : List α → β → List α)
    (hf : ∀ acc b x, (∀ y ∈ acc, P y) → x ∈ f acc b → P x) :
    ∀ (l : List β) (acc : List α), (∀ y ∈ acc, P y) →
      ∀ x ∈ l.foldl f acc, P x := by
  intro l
  induction l with
  | nil => intro acc hacc x hx; exact hacc x hx
  | cons b bs ih =>
    intro acc hacc x hx
    exact ih (f acc b) (fun y hy => hf acc b y hacc hy) x hx

theorem is_valid_file_url_elim {domain url ft : List Char}
    (h : is_valid_file_url domain url ft = true) :
    ∃ p : ParseRes, pyUrlparse url = some p ∧
      p.scheme ≠ [] ∧ p.netloc ≠ [] ∧
      ('.' :: ft.map pyLower).isSuffixOf (p.path.map pyLower) = true ∧
      (domain ≠ [] → containsSub domain p.netloc = true) := by
  unfold is_valid_file_url at h
  cases hp : pyUrlparse url with
  | none => rw [hp] at h; cases h
  | some p =>
    rw [hp] at h
    dsimp only at h
    by_cases h1 : (p.scheme.isEmpty || p.netloc.isEmpty) = true
    · rw [if_pos h1] at h; cases h
    rw [if_neg h1] at h
    by_cases h2 : (!(('.' :: ft.map pyLower).isSuffixOf (p.path.map pyLower)))
        = true
    · rw [if_pos h2] at h; cases h
    rw [if_neg h2] at h
    rw [Bool.or_eq_true] at h1
    push_neg at h1
    refine ⟨p, rfl, ?_, ?_, ?_, ?_⟩
    · intro hs
      exact h1.1 (by rw [hs]; rfl)
    · intro hn
      exact h1.2 (by rw [hn]; rfl)
    · by_cases hb : ('.' :: ft.map pyLower).isSuffixOf (p.path.map pyLower)
          = true
      · exact hb
      · exact absurd
          (by rw [Bool.eq_false_iff.2 hb]; rfl :
            (!('.' :: ft.map pyLower).isSuffixOf (p.path.map pyLower)) = true)
          h2
    · intro hd
      by_cases hc : containsSub domain p.netloc = true
      · exact hc
      · exfalso
        have hde : domain.isEmpty = false := by
          cases domain with
          | nil => exact absurd rfl hd
          | cons a as => rfl
        rw [hde] at h
        simp only [Bool.not_false, Bool.true_and] at h
        rw [Bool.eq_false_iff.2 hc] at h
        simp at h

/-- C5 amended: every `SearchResult` produced by `_parse_results` (either
pass, including `uddg`-unwrapped links) carries a URL that parses with a
nonempty scheme and host, whose path ends with `.<file_type>`
case-insensitively, and whose host contains the domain substring when a
domain filter is set.  (The scheme need not be http/https for the
structured pass — see the counterexample.) -/
theorem parse_results_valid (html ft domain : List Char) :
    ∀ r ∈ parse_results html ft domain,
      ∃ p : ParseRes, pyUrlparse r.url = some p ∧
        p.scheme ≠ [] ∧ p.netloc ≠ [] ∧
        ('.' :: ft.map pyLower).isSuffixOf (p.path.map pyLower) = true ∧
        (domain ≠ [] → containsSub domain p.netloc = true) := by
  intro r hr
  have hBstep : ∀ (acc : List SearchResultL) (b : List Char)
      (x : SearchResultL),
      (∀ y ∈ acc, is_valid_file_url domain y.url ft = true) →
      x ∈ passBStep ft domain acc b →
      is_valid_file_url domain x.url ft = true := by
    intro acc b x hacc hx
    unfold passBStep at hx
    dsimp only at hx
    by_cases hc : (!(clean_url b).isEmpty &&
        is_valid_file_url domain (clean_url b) ft &&
        !(acc.any (fun r => r.url = clean_url b))) = true
    · rw [if_pos hc] at hx
      rcases List.mem_append.1 hx with hx | hx
      · exact hacc x hx
      · rcases List.mem_singleton.1 hx with rfl
        rw [Bool.and_eq_true, Bool.and_eq_true] at hc
        exact hc.1.2
    · rw [if_neg hc] at hx
      exact hacc x hx
  have hAstep : ∀ (acc : List SearchResultL) (g : List Char × List Char)
      (x : SearchResultL),
      (∀ y ∈ acc, is_valid_file_url domain y.url ft = true) →
      x ∈ passAStep ft domain acc g →
      is_valid_file_url domain x.url ft = true := by
    intro acc g x hacc hx
    unfold passAStep at hx
    dsimp only at hx
    by_cases hu : containsSub ("uddg=".data) g.1 = true
    · rw [if_pos hu] at hx
      cases he : extract_uddg_url g.1 with
      | none => rw [he] at hx; exact hacc x hx
      | some actual =>
        rw [he] at hx
        dsimp only at hx
        by_cases hv : (!actual.isEmpty &&
            is_valid_file_url domain actual ft) = true
        · rw [if_pos hv] at hx
          rcases List.mem_append.1 hx with hx | hx
          · exact hacc x hx
          · rcases List.mem_singleton.1 hx with rfl
            rw [Bool.and_eq_true] at hv
            exact hv.2
        · rw [if_neg hv] at hx
          exact hacc x hx
    · rw [if_neg hu] at hx
      by_cases hv : is_valid_file_url domain g.1 ft = true
      · rw [if_pos hv] at hx
        rcases List.mem_append.1 hx with hx | hx
        · exact hacc x hx
        · rcases List.mem_singleton.1 hx with rfl
          exact hv
      · rw [if_neg hv] at hx
        exact hacc x hx
  have hvalid : is_valid_file_url domain r.url ft = true := by
    unfold parse_results at hr
    refine foldl_all _ (passBStep ft domain) hBstep
      (scanCap (matchFileHref ft) html.length html) _ ?_ r hr
    exact foldl_all _ (passAStep ft domain) hAstep
      (scanCap matchResultA html.length html) []
      (by intro y hy; cases hy)
  exact is_valid_file_url_elim hvalid

/-- C5 counterexample: the structured pass accepts an `ftp://` link — the
parsed URL has scheme `ftp`, so results are not guaranteed to be HTTP(S)
URLs as the claim states. -/
theorem parse_results_https_cex :
    (⟨"ftp://h.com/f.pdf".data, some "T".data⟩ : SearchResultL) ∈
      parse_results
        "<a class=\"result__a\" href=\"ftp://h.com/f.pdf\">T</a>".data
        "pdf".data "h.com".data ∧
    (pyUrlparse "ftp://h.com/f.pdf".data).map ParseRes.scheme =
      some "ftp".data := by
  exact ⟨by decide, by decide⟩

/-- Witness for `parse_results_valid` at a concrete page: the single
result of a small page is validated. -/
theorem parse_results_valid_witness :
    (⟨"http://h.com/a.pdf".data, some "Doc".data⟩ : SearchResultL) ∈
      parse_results
        "<a class=\"result__a\" href=\"http://h.com/a.pdf\">Doc</a>".data
        "pdf".data "h.com".data ∧
    (∃ p : ParseRes,
      pyUrlparse (⟨"http://h.com/a.pdf".data, some "Doc".data⟩ :
          SearchResultL).url = some p ∧
      p.scheme ≠ [] ∧ p.netloc ≠ [] ∧
      ('.' :: "pdf".data.map pyLower).isSuffixOf (p.path.map pyLower) =
        true ∧
      ("h.com".data ≠ [] → containsSub "h.com".data p.netloc = true)) :=
  ⟨by decide,
   parse_results_valid
     "<a class=\"result__a\" href=\"http://h.com/a.pdf\">Doc</a>".data
     "pdf".data "h.com".data
     ⟨"http://h.com/a.pdf".data, some "Doc".data⟩ (by decide)⟩

/-! ### C2 and C8: the retry loop and the courtesy sleep -/

/-- C2: in `search_files` with `max_retries = 3`, an HTTP 202 or 429
response consumes an attempt and is retried; three such statuses in a row
raise a `SearchError` carrying the query after 3 requests; any other
non-200 status raises immediately after a single request; and the
429, 429, 200 scenario returns the parsed results with exactly two
backoff sleeps. -/
theorem search_files_retry_spec (script : Nat → SearchResp)
    (domain ft : List Char) (limit : Int) :
    (∀ s0 s1 s2 b0 b1 b2,
      script 0 = SearchResp.http s0 b0 →
      script 1 = SearchResp.http s1 b1 →
      script 2 = SearchResp.http s2 b2 →
      (s0 = 202 ∨ s0 = 429) → (s1 = 202 ∨ s1 = 429) →
      (s2 = 202 ∨ s2 = 429) →
      search_files script domain ft limit 3 =
        ⟨Except.error ⟨"Rate limited (status ".data ++ natStr s2 ++
            ")".data,
          "filetype:".data ++ ft ++ " site:".data ++ domain⟩, 2, 3,
          false⟩) ∧
    (∀ s0 b0,
      script 0 = SearchResp.http s0 b0 →
      ¬(s0 = 202 ∨ s0 = 429) → s0 ≠ 200 →
      search_files script domain ft limit 3 =
        ⟨Except.error ⟨"Search failed with status ".data ++ natStr s0,
          "filetype:".data ++ ft ++ " site:".data ++ domain⟩, 0, 1,
          false⟩) ∧
    (∀ b0 b1 body,
      script 0 = SearchResp.http 429 b0 →
      script 1 = SearchResp.http 429 b1 →
      script 2 = SearchResp.http 200 body →
      search_files script domain ft limit 3 =
        ⟨Except.ok (pySliceStop (parse_results body ft domain) limit),
          2, 3, true⟩) := by
  refine ⟨?_, ?_, ?_⟩
  · intro s0 s1 s2 b0 b1 b2 h0 h1 h2 r0 r1 r2
    rcases r0 with rfl | rfl <;> rcases r1 with rfl | rfl <;>
      rcases r2 with rfl | rfl <;>
      · simp only [search_files, searchAttempts, h0, h1, h2]
        rfl
  · intro s0 b0 h0 hn2 hn0
    rw [not_or] at hn2
    simp only [search_files, searchAttempts, h0]
    rw [if_neg (by simp [hn2.1, hn2.2]), if_pos (by simp [hn0])]
    rfl
  · intro b0 b1 body h0 h1 h2
    simp only [search_files, searchAttempts, h0, h1, h2]
    rfl

/-- Witness for `search_files_retry_spec` at a concrete script: two 429
responses followed by a 200 yield the parsed results (here empty) with
two backoff sleeps. -/
theorem search_files_retry_spec_witness :
    search_files
        (fun n => if n = 2 then SearchResp.http 200 []
          else SearchResp.http 429 []) "d.com".data "pdf".data 100 3 =
      ⟨Except.ok (pySliceStop
          (parse_results [] "pdf".data "d.com".data) 100), 2, 3, true⟩ :=
  (search_files_retry_spec
    (fun n => if n = 2 then SearchResp.http 200 []
      else SearchResp.http 429 []) "d.com".data "pdf".data 100).2.2
    [] [] [] rfl rfl rfl

/-- C8 counterexample: when every attempt is rate-limited (HTTP 429),
`search_files` raises, and the courtesy sleep after the attempt loop is
skipped — it does not happen on every outcome. -/
theorem search_files_courtesy_cex :
    (search_files (fun _ => SearchResp.http 429 []) "d.com".data
        "pdf".data 100 3).courtesy = false ∧
    (search_files (fun _ => SearchResp.http 429 []) "d.com".data
        "pdf".data 100 3).result =
      Except.error ⟨"Rate limited (status 429)".data,
        "filetype:pdf site:d.com".data⟩ :=
  ⟨rfl, rfl⟩

/-- C8 amended: the courtesy sleep of `base_delay` plus jitter runs
exactly when `search_files` returns normally; when the attempt loop
raises, the sleep is skipped. -/
theorem search_files_courtesy (script : Nat → SearchResp)
    (domain ft : List Char) (limit : Int) (maxRetries : Nat) :
    (search_files script domain ft limit maxRetries).courtesy =
      (search_files script domain ft limit maxRetries).result.isOk := by
  unfold search_files
  dsimp only
  rcases hsa : searchAttempts script
      ("filetype:".data ++ ft ++ " site:".data ++ domain) ft domain
      maxRetries maxRetries 0 0 0 with ⟨r | e, sleeps, reqs⟩ <;> rfl


/-! ### C1, C9, C10: the downloader -/

theorem decAcc_nil (a : Nat) : decAcc a [] = a := rfl

theorem decAcc_cons (a : Nat) (c : Char) (rest : List Char) :
    decAcc a (c :: rest) = decAcc (a * 10 + (c.toNat - 48)) rest := rfl

theorem decAcc_append (xs ys : List Char) : ∀ a,
    decAcc a (xs ++ ys) = decAcc (decAcc a xs) ys := by
  induction xs with
  | nil => intro a; rfl
  | cons c rest ih =>
    intro a
    rw [List.cons_append, decAcc_cons, decAcc_cons]
    exact ih _

theorem toNat_digitChar (n : Nat) (h : n < 10) :
    (Char.ofNat (48 + n)).toNat = 48 + n := by
  interval_cases n <;> rfl

theorem natDigits_succ (fuel n : Nat) :
    natDigits (fuel + 1) n =
      if n < 10 then [Char.ofNat (48 + n)]
      else natDigits fuel (n / 10) ++ [Char.ofNat (48 + n % 10)] := rfl

theorem decAcc_natDigits : ∀ fuel n, n < fuel → ∀ a,
    decAcc a (natDigits fuel n) =
      a * 10 ^ (natDigits fuel n).length + n := by
  intro fuel
  induction fuel with
  | zero => intro n hn; omega
  | succ fuel ih =>
    intro n hn a
    by_cases h10 : n < 10
    · rw [natDigits_succ, if_pos h10, decAcc_cons, decAcc_nil,
        toNat_digitChar n h10, List.length_cons, List.length_nil,
        pow_one]
      omega
    · rw [natDigits_succ, if_neg h10]
      have hlt : n / 10 < fuel := by
        have := Nat.div_lt_self (by omega : 0 < n) (by omega : 1 < 10)
        omega
      rw [decAcc_append, ih (n / 10) hlt a, decAcc_cons, decAcc_nil,
        toNat_digitChar (n % 10) (Nat.mod_lt n (by omega)),
        List.length_append, List.length_cons, List.length_nil,
        Nat.add_mul, Nat.mul_assoc]
      rw [show (10 : Nat) ^ (natDigits fuel (n / 10)).length * 10 =
        10 ^ ((natDigits fuel (n / 10)).length + (0 + 1)) from by
          rw [pow_succ]]
      omega

theorem natStr_decode (n : Nat) : decAcc 0 (natStr n) = n := by
  have := decAcc_natDigits (n + 1) n (by omega) 0
  simpa using this

theorem natStr_inj : Function.Injective natStr := by
  intro m k h
  have hm := natStr_decode m
  rw [h, natStr_decode] at hm
  omega

theorem cand_inj (stem ext : List Char) :
    Function.Injective (fun c => stem ++ '_' :: natStr c ++ ext) := by
  intro c c' h
  dsimp only at h
  have h1 := List.append_cancel_left (List.append_cancel_right h)
  have h2 : natStr c = natStr c' := by
    injection h1
  exact natStr_inj h2

theorem uniqueLoop_succ (fs : List (List Char)) (stem ext : List Char)
    (fuel counter : Nat) (path : List Char) :
    uniqueLoop fs stem ext (fuel + 1) counter path =
      if path ∈ fs then
        uniqueLoop fs stem ext fuel (counter + 1)
          (stem ++ '_' :: natStr counter ++ ext)
      else path := rfl

theorem uniqueLoop_mem (fs : List (List Char)) (stem ext : List Char) :
    ∀ fuel counter path,
    uniqueLoop fs stem ext fuel counter path ∈ fs →
    path ∈ fs ∧ ∀ c, counter ≤ c → c < counter + fuel →
      stem ++ '_' :: natStr c ++ ext ∈ fs := by
  intro fuel
  induction fuel with
  | zero => intro counter path h; exact ⟨h, fun c h1 h2 => by omega⟩
  | succ fuel ih =>
    intro counter path h
    rw [uniqueLoop_succ] at h
    by_cases hp : path ∈ fs
    · rw [if_pos hp] at h
      obtain ⟨hcand, hrest⟩ := ih (counter + 1)
        (stem ++ '_' :: natStr counter ++ ext) h
      refine ⟨hp, fun c h1 h2 => ?_⟩
      rcases Nat.eq_or_lt_of_le h1 with rfl | hlt
      · exact hcand
      · exact hrest c hlt (by omega)
    · rw [if_neg hp] at h
      exact absurd h hp

theorem get_unique_path_not_mem (fs : List (List Char))
    (name : List Char) : get_unique_path fs name ∉ fs := by
  unfold get_unique_path
  by_cases h : name ∈ fs
  · rw [if_pos h]
    intro hmem
    obtain ⟨-, hall⟩ := uniqueLoop_mem fs (pathStem name)
      (pathSuffix name) (fs.length + 1) 1 name hmem
    have hinj : Function.Injective (fun i =>
        pathStem name ++ '_' :: natStr (1 + i) ++ pathSuffix name) := by
      intro i j hij
      have := cand_inj (pathStem name) (pathSuffix name) hij
      omega
    have hnd : ((List.range (fs.length + 1)).map (fun i =>
        pathStem name ++ '_' :: natStr (1 + i) ++
          pathSuffix name)).Nodup :=
      List.Nodup.map hinj (List.nodup_range _)
    have hsub : ∀ x ∈ (List.range (fs.length + 1)).map (fun i =>
        pathStem name ++ '_' :: natStr (1 + i) ++ pathSuffix name),
        x ∈ fs := by
      intro x hx
      rw [List.mem_map] at hx
      obtain ⟨i, hi, rfl⟩ := hx
      rw [List.mem_range] at hi
      exact hall (1 + i) (by omega) (by omega)
    have hlen : ((List.range (fs.length + 1)).map (fun i =>
        pathStem name ++ '_' :: natStr (1 + i) ++
          pathSuffix name)).length ≤ fs.length := by
      set l := (List.range (fs.length + 1)).map (fun i =>
        pathStem name ++ '_' :: natStr (1 + i) ++ pathSuffix name)
        with hl
      calc l.length = l.toFinset.card :=
            (List.toFinset_card_of_nodup hnd).symm
        _ ≤ fs.toFinset.card := Finset.card_le_card (by
            intro x hx
            rw [List.mem_toFinset] at hx ⊢
            exact hsub x hx)
        _ ≤ fs.length := fs.toFinset_card_le
    rw [List.length_map, List.length_range] at hlen
    omega
  · rw [if_neg h]
    exact h

/-- C1 (code bug): the skip-if-exists branch of `_download_file` is dead.
`_get_unique_path` runs before the existence check and always returns a
path that does not yet exist, so `local_path.exists()` is never true: a
URL whose filename is already present is fetched again (one HTTP request)
and written under the renumbered name `report_1.pdf` instead of being
returned as a pre-existing success with no fetch. -/
theorem download_skip_dead :
    (∀ fs name, get_unique_path fs name ∉ fs) ∧
    (∀ fetch content, 100 ≤ content.length →
      fetch "http://host.com/report.pdf".data =
        FetchResp.http 200 content →
      download_file fetch ["report.pdf".data]
          "http://host.com/report.pdf".data =
        (⟨"http://host.com/report.pdf".data, some "report_1.pdf".data,
          true, none⟩, 1,
         ["report.pdf".data, "report_1.pdf".data])) := by
  constructor
  · exact fun fs name => get_unique_path_not_mem fs name
  · intro fetch content hlen hf
    unfold download_file
    rw [show extract_filename "http://host.com/report.pdf".data =
      some "report.pdf".data from by decide]
    dsimp only
    rw [show get_unique_path ["report.pdf".data] "report.pdf".data =
      "report_1.pdf".data from by decide]
    rw [if_neg (by decide :
      ¬("report_1.pdf".data ∈ ["report.pdf".data]))]
    rw [hf]
    dsimp only
    rw [if_pos rfl, if_neg (by omega : ¬(content.length < 100))]
    rfl

theorem download_file_url (fetch : List Char → FetchResp)
    (fs : List (List Char)) (url : List Char) :
    (download_file fetch fs url).1.url = url := by
  unfold download_file
  cases hx : extract_filename url with
  | none => rfl
  | some filename =>
    dsimp only
    by_cases hmem : get_unique_path fs filename ∈ fs
    · rw [if_pos hmem]
    · rw [if_neg hmem]
      cases hf : fetch url with
      | http st content =>
        dsimp only
        by_cases h200 : st = 200
        · rw [if_pos h200]
          by_cases hsmall : content.length < 100
          · rw [if_pos hsmall]
          · rw [if_neg hsmall]
        · rw [if_neg h200]
      | timeout => rfl
      | netErr m => rfl

theorem downloadGo_cons (fetch : List Char → FetchResp)
    (url : List Char) (rest fs : List (List Char)) :
    downloadGo fetch (url :: rest) fs =
      ((download_file fetch fs url).1 ::
        (downloadGo fetch rest (download_file fetch fs url).2.2).1,
       (download_file fetch fs url).2.1 +
        (downloadGo fetch rest (download_file fetch fs url).2.2).2.1,
       (downloadGo fetch rest (download_file fetch fs url).2.2).2.2) :=
  rfl

theorem downloadGo_urls (fetch : List Char → FetchResp) :
    ∀ (l : List (List Char)) (fs : List (List Char)),
      (downloadGo fetch l fs).1.map DownloadResultL.url = l := by
  intro l
  induction l with
  | nil => intro fs; rfl
  | cons url rest ih =>
    intro fs
    rw [downloadGo_cons, List.map_cons, download_file_url, ih]

theorem map_get_eq {α β : Type} (f : α → β) (l : List α) (m : List β)
    (h : l.map f = m) (i : Nat) (h1 : i < l.length)
    (h2 : i < m.length) :
    f (l.get ⟨i, h1⟩) = m.get ⟨i, h2⟩ := by
  subst h
  simp [List.get_eq_getElem]

/-- C9: `download_files` produces one result per input URL up to the
limit, in input order: the mined result list, mapped to its `url` fields,
is exactly the truncated input list, and the `i`-th result carries the
`i`-th URL. -/
theorem download_files_order (fetch : List Char → FetchResp)
    (urls : List (List Char)) (limit : Option Int)
    (fs : List (List Char)) :
    (download_files fetch urls limit fs).1.map DownloadResultL.url =
      urlsToDownload urls limit ∧
    (download_files fetch urls limit fs).1.length =
      (urlsToDownload urls limit).length ∧
    ∀ (i : Nat) (h1 : i < (download_files fetch urls limit fs).1.length)
      (h2 : i < (urlsToDownload urls limit).length),
      ((download_files fetch urls limit fs).1.get ⟨i, h1⟩).url =
        (urlsToDownload urls limit).get ⟨i, h2⟩ := by
  have hm : (download_files fetch urls limit fs).1.map
      DownloadResultL.url = urlsToDownload urls limit :=
    downloadGo_urls fetch _ fs
  refine ⟨hm, ?_, ?_⟩
  · have := congrArg List.length hm
    rwa [List.length_map] at this
  · intro i h1 h2
    exact map_get_eq DownloadResultL.url _ _ hm i h1 h2

/-- Witness for `download_files_order` at a concrete call: two URLs,
limit 1, every fetch timing out — the single result carries the first
URL. -/
theorem download_files_order_witness :
    (download_files (fun x => FetchResp.timeout)
        ["http://a.com/x.pdf".data, "http://a.com/y.pdf".data] (some 1)
        []).1.map DownloadResultL.url = ["http://a.com/x.pdf".data] :=
  ((download_files_order (fun x => FetchResp.timeout)
      ["http://a.com/x.pdf".data, "http://a.com/y.pdf".data] (some 1)
      []).1).trans (by decide)

/-- C10: `limit = 0` is falsy in `urls[:limit] if limit else urls`, so it
behaves exactly like no limit: every input URL gets a result, not an
empty list. -/
theorem download_files_limit_zero (fetch : List Char → FetchResp)
    (urls : List (List Char)) (fs : List (List Char)) :
    download_files fetch urls (some 0) fs =
      download_files fetch urls none fs ∧
    (download_files fetch urls (some 0) fs).1.length = urls.length := by
  have h : urlsToDownload urls (some 0) = urls := rfl
  constructor
  · unfold download_files
    rw [h]
    rfl
  · unfold download_files
    rw [h]
    have := congrArg List.length (downloadGo_urls fetch urls fs)
    rwa [List.length_map] at this



/-! ### C6 and C7: the metadata pipelines and the processor -/

theorem nodup_insAbs {α : Type} [DecidableEq α] {acc : List α} {x : α}
    (h : acc.Nodup) : (insAbs acc x).Nodup := by
  unfold insAbs
  by_cases hx : x ∈ acc
  · simp [hx, h]
  · simp [hx]
    exact List.Nodup.append h (List.nodup_singleton x) (by simpa using hx)

theorem nodup_foldl_insAbs {α : Type} [DecidableEq α] (l : List α) :
    ∀ acc : List α, acc.Nodup → (l.foldl insAbs acc).Nodup := by
  induction l with
  | nil => intro acc h; simpa using h
  | cons x xs ih =>
    intro acc h
    exact ih (insAbs acc x) (nodup_insAbs h)

theorem nodup_dedupF {α : Type} [DecidableEq α] (l : List α) :
    (dedupF l).Nodup :=
  nodup_foldl_insAbs l [] List.nodup_nil

theorem dedupF_append {α : Type} [DecidableEq α] (xs ys : List α) :
    dedupF (xs ++ ys) = ys.foldl insAbs (dedupF xs) := by
  unfold dedupF
  rw [List.foldl_append]

theorem dedupF_optKeep (o : Option String) (k : String → Bool) :
    dedupF (optKeep o k) = optKeep o k := by
  unfold dedupF optKeep
  cases o with
  | none => rfl
  | some s =>
    dsimp only
    by_cases h : k s = true
    · rw [if_pos h]
      simp [insAbs]
    · rw [if_neg h]
      rfl

theorem pdfStepAuthor_lists (info : PdfInfo) (m : DocMeta) :
    (pdfStepAuthor info m).users =
      (optKeep info.author (fun a => !a.isEmpty)).foldl insAbs m.users ∧
    (pdfStepAuthor info m).software = m.software ∧
    (pdfStepAuthor info m).paths = m.paths ∧
    (pdfStepAuthor info m).emails = m.emails := by
  unfold pdfStepAuthor optKeep
  cases info.author with
  | none => exact ⟨rfl, rfl, rfl, rfl⟩
  | some a =>
    dsimp only
    by_cases h : (!a.isEmpty) = true
    · rw [if_pos h, if_pos h]
      exact ⟨rfl, rfl, rfl, rfl⟩
    · rw [if_neg h, if_neg h]
      exact ⟨rfl, rfl, rfl, rfl⟩

theorem pdfStepCreator_lists (info : PdfInfo) (m : DocMeta) :
    (pdfStepCreator info m).users = m.users ∧
    (pdfStepCreator info m).software =
      (optKeep info.creator (fun a => !a.isEmpty)).foldl insAbs
        m.software ∧
    (pdfStepCreator info m).paths = m.paths ∧
    (pdfStepCreator info m).emails = m.emails := by
  unfold pdfStepCreator optKeep
  cases info.creator with
  | none => exact ⟨rfl, rfl, rfl, rfl⟩
  | some a =>
    dsimp only
    by_cases h : (!a.isEmpty) = true
    · rw [if_pos h, if_pos h]
      exact ⟨rfl, rfl, rfl, rfl⟩
    · rw [if_neg h, if_neg h]
      exact ⟨rfl, rfl, rfl, rfl⟩

theorem pdfStepProducer_lists (info : PdfInfo) (m : DocMeta) :
    (pdfStepProducer info m).users = m.users ∧
    (pdfStepProducer info m).software =
      (optKeep info.producer (fun a => !a.isEmpty)).foldl insAbs
        m.software ∧
    (pdfStepProducer info m).paths = m.paths ∧
    (pdfStepProducer info m).emails = m.emails := by
  unfold pdfStepProducer optKeep
  cases info.producer with
  | none => exact ⟨rfl, rfl, rfl, rfl⟩
  | some a =>
    dsimp only
    by_cases h : (!a.isEmpty) = true
    · rw [if_pos h, if_pos h]
      exact ⟨rfl, rfl, rfl, rfl⟩
    · rw [if_neg h, if_neg h]
      exact ⟨rfl, rfl, rfl, rfl⟩

theorem pdfStepTitle_lists (info : PdfInfo) (m : DocMeta) :
    (pdfStepTitle info m).users = m.users ∧
    (pdfStepTitle info m).software = m.software ∧
    (pdfStepTitle info m).paths =
      m.paths ++ optKeep info.title hasSlash ∧
    (pdfStepTitle info m).emails = m.emails := by
  unfold pdfStepTitle optKeep
  cases info.title with
  | none => exact ⟨rfl, rfl, (List.append_nil _).symm, rfl⟩
  | some t =>
    dsimp only
    by_cases h : hasSlash t = true
    · rw [if_pos h, if_pos h]
      exact ⟨rfl, rfl, rfl, rfl⟩
    · rw [if_neg h, if_neg h]
      exact ⟨rfl, rfl, (List.append_nil _).symm, rfl⟩

theorem pdfStepSubject_lists (info : PdfInfo) (m : DocMeta) :
    (pdfStepSubject info m).users = m.users ∧
    (pdfStepSubject info m).software = m.software ∧
    (pdfStepSubject info m).paths = m.paths ∧
    (pdfStepSubject info m).emails =
      m.emails ++
        optKeep info.subject (fun s => containsSub "@".data s.data) := by
  unfold pdfStepSubject optKeep
  cases info.subject with
  | none => exact ⟨rfl, rfl, rfl, (List.append_nil _).symm⟩
  | some t =>
    dsimp only
    by_cases h : containsSub "@".data t.data = true
    · rw [if_pos h, if_pos h]
      exact ⟨rfl, rfl, rfl, rfl⟩
    · rw [if_neg h, if_neg h]
      exact ⟨rfl, rfl, rfl, (List.append_nil _).symm⟩

theorem docxStepAuthor_lists (props : DocxProps) (m : DocMeta) :
    (docxStepAuthor props m).users =
      (optKeep (props.author.map clean_string)
        (fun a => !a.isEmpty)).foldl insAbs m.users ∧
    (docxStepAuthor props m).software = m.software ∧
    (docxStepAuthor props m).paths = m.paths ∧
    (docxStepAuthor props m).emails = m.emails := by
  unfold docxStepAuthor optKeep
  cases props.author with
  | none => exact ⟨rfl, rfl, rfl, rfl⟩
  | some a =>
    dsimp only [Option.map]
    by_cases h : (!(clean_string a).isEmpty) = true
    · rw [if_pos h, if_pos h]
      exact ⟨rfl, rfl, rfl, rfl⟩
    · rw [if_neg h, if_neg h]
      exact ⟨rfl, rfl, rfl, rfl⟩

theorem docxStepLastMod_lists (props : DocxProps) (m : DocMeta) :
    (docxStepLastMod props m).users =
      (optKeep (props.last_modified_by.map clean_string)
        (fun a => !a.isEmpty)).foldl insAbs m.users ∧
    (docxStepLastMod props m).software = m.software ∧
    (docxStepLastMod props m).paths = m.paths ∧
    (docxStepLastMod props m).emails = m.emails := by
  unfold docxStepLastMod optKeep
  cases props.last_modified_by with
  | none => exact ⟨rfl, rfl, rfl, rfl⟩
  | some a =>
    dsimp only [Option.map]
    by_cases h : (!(clean_string a).isEmpty) = true
    · rw [if_pos h, if_pos h]
      exact ⟨rfl, rfl, rfl, rfl⟩
    · rw [if_neg h, if_neg h]
      exact ⟨rfl, rfl, rfl, rfl⟩

theorem docxStepApp_lists (props : DocxProps) (m : DocMeta) :
    (docxStepApp props m).users = m.users ∧
    (docxStepApp props m).software =
      (optKeep props.application (fun x => true)).foldl insAbs
        m.software ∧
    (docxStepApp props m).paths = m.paths ∧
    (docxStepApp props m).emails = m.emails := by
  unfold docxStepApp optKeep
  cases props.application with
  | none => exact ⟨rfl, rfl, rfl, rfl⟩
  | some t => exact ⟨rfl, rfl, rfl, rfl⟩

theorem docxStepVersion_lists (props : DocxProps) (m : DocMeta) :
    (docxStepVersion props m).users = m.users ∧
    (docxStepVersion props m).software = m.software ∧
    (docxStepVersion props m).paths = m.paths ∧
    (docxStepVersion props m).emails = m.emails := by
  unfold docxStepVersion
  cases props.app_version with
  | none => exact ⟨rfl, rfl, rfl, rfl⟩
  | some v => exact ⟨rfl, rfl, rfl, rfl⟩

theorem docxStepTemplate_lists (props : DocxProps) (m : DocMeta) :
    (docxStepTemplate props m).users = m.users ∧
    (docxStepTemplate props m).software = m.software ∧
    (docxStepTemplate props m).paths =
      m.paths ++ optKeep props.template hasSlash ∧
    (docxStepTemplate props m).emails = m.emails := by
  unfold docxStepTemplate optKeep
  cases props.template with
  | none => exact ⟨rfl, rfl, (List.append_nil _).symm, rfl⟩
  | some t =>
    dsimp only
    by_cases h : hasSlash t = true
    · rw [if_pos h, if_pos h]
      exact ⟨rfl, rfl, rfl, rfl⟩
    · rw [if_neg h, if_neg h]
      exact ⟨rfl, rfl, (List.append_nil _).symm, rfl⟩

theorem enrich_lists (text : Option String) (m : DocMeta) :
    (enrich_metadata text m).users = m.users ∧
    (enrich_metadata text m).software = m.software ∧
    (enrich_metadata text m).paths =
      (textCands text (fun t => extract_paths t)).foldl insAbs m.paths ∧
    (enrich_metadata text m).emails =
      (textCands text (fun t => extract_emails t)).foldl insAbs
        m.emails := by
  unfold enrich_metadata textCands
  cases text with
  | none => exact ⟨rfl, rfl, rfl, rfl⟩
  | some t =>
    dsimp only
    by_cases h : t.isEmpty = true
    · rw [if_pos h, if_pos h, if_pos h]
      exact ⟨rfl, rfl, rfl, rfl⟩
    · rw [if_neg h, if_neg h, if_neg h]
      exact ⟨rfl, rfl, rfl, rfl⟩

/-- C6: after extraction (the PDF pipeline from the info dictionary, the
DOCX pipeline from the core/app properties) and processor enrichment,
each of the `users`, `software`, `paths` and `emails` lists equals the
first-occurrence deduplication of its candidate sequence — so it is
duplicate-free and preserves first-seen insertion order. -/
theorem metadata_lists_nodup (info : PdfInfo) (props : DocxProps)
    (textP textD : Option String) :
    ((enrich_metadata textP (pdfExtractInfo info {})).users =
        dedupF (optKeep info.author (fun a => !a.isEmpty)) ∧
      (enrich_metadata textP (pdfExtractInfo info {})).software =
        dedupF (optKeep info.creator (fun a => !a.isEmpty) ++
          optKeep info.producer (fun a => !a.isEmpty)) ∧
      (enrich_metadata textP (pdfExtractInfo info {})).paths =
        dedupF (optKeep info.title hasSlash ++
          textCands textP (fun t => extract_paths t)) ∧
      (enrich_metadata textP (pdfExtractInfo info {})).emails =
        dedupF (optKeep info.subject
            (fun s => containsSub "@".data s.data) ++
          textCands textP (fun t => extract_emails t)) ∧
      (enrich_metadata textP (pdfExtractInfo info {})).users.Nodup ∧
      (enrich_metadata textP (pdfExtractInfo info {})).software.Nodup ∧
      (enrich_metadata textP (pdfExtractInfo info {})).paths.Nodup ∧
      (enrich_metadata textP (pdfExtractInfo info {})).emails.Nodup) ∧
    ((enrich_metadata textD (docxExtract props)).users =
        dedupF (optKeep (props.author.map clean_string)
            (fun a => !a.isEmpty) ++
          optKeep (props.last_modified_by.map clean_string)
            (fun a => !a.isEmpty)) ∧
      (enrich_metadata textD (docxExtract props)).software =
        dedupF (optKeep props.application (fun x => true)) ∧
      (enrich_metadata textD (docxExtract props)).paths =
        dedupF (optKeep props.template hasSlash ++
          textCands textD (fun t => extract_paths t)) ∧
      (enrich_metadata textD (docxExtract props)).emails =
        dedupF (textCands textD (fun t => extract_emails t)) ∧
      (enrich_metadata textD (docxExtract props)).users.Nodup ∧
      (enrich_metadata textD (docxExtract props)).software.Nodup ∧
      (enrich_metadata textD (docxExtract props)).paths.Nodup ∧
      (enrich_metadata textD (docxExtract props)).emails.Nodup) := by
  obtain ⟨ha1, ha2, ha3, ha4⟩ := pdfStepAuthor_lists info
    ({} : DocMeta)
  obtain ⟨hc1, hc2, hc3, hc4⟩ := pdfStepCreator_lists info
    (pdfStepAuthor info {})
  obtain ⟨hp1, hp2, hp3, hp4⟩ := pdfStepProducer_lists info
    (pdfStepCreator info (pdfStepAuthor info {}))
  obtain ⟨ht1, ht2, ht3, ht4⟩ := pdfStepTitle_lists info
    (pdfStepProducer info (pdfStepCreator info (pdfStepAuthor info {})))
  obtain ⟨hs1, hs2, hs3, hs4⟩ := pdfStepSubject_lists info
    (pdfStepTitle info (pdfStepProducer info
      (pdfStepCreator info (pdfStepAuthor info {}))))
  obtain ⟨he1, he2, he3, he4⟩ := enrich_lists textP
    (pdfExtractInfo info {})
  have hPu : (enrich_metadata textP (pdfExtractInfo info {})).users =
      dedupF (optKeep info.author (fun a => !a.isEmpty)) := by
    rw [he1]
    show (pdfStepSubject info _).users = _
    rw [hs1, ht1, hp1, hc1, ha1]
    rfl
  have hPs : (enrich_metadata textP (pdfExtractInfo info {})).software =
      dedupF (optKeep info.creator (fun a => !a.isEmpty) ++
        optKeep info.producer (fun a => !a.isEmpty)) := by
    rw [he2]
    show (pdfStepSubject info _).software = _
    rw [hs2, ht2, hp2, hc2, ha2]
    rw [dedupF_append]
    rfl
  have hPp : (enrich_metadata textP (pdfExtractInfo info {})).paths =
      dedupF (optKeep info.title hasSlash ++
        textCands textP (fun t => extract_paths t)) := by
    rw [he3]
    show (textCands textP (fun t => extract_paths t)).foldl insAbs
      (pdfStepSubject info _).paths = _
    rw [hs3, ht3, hp3, hc3, ha3]
    rw [dedupF_append, dedupF_optKeep]
    rfl
  have hPe : (enrich_metadata textP (pdfExtractInfo info {})).emails =
      dedupF (optKeep info.subject
          (fun s => containsSub "@".data s.data) ++
        textCands textP (fun t => extract_emails t)) := by
    rw [he4]
    show (textCands textP (fun t => extract_emails t)).foldl insAbs
      (pdfStepSubject info _).emails = _
    rw [hs4, ht4, hp4, hc4, ha4]
    rw [dedupF_append, dedupF_optKeep]
    rfl
  obtain ⟨da1, da2, da3, da4⟩ := docxStepAuthor_lists props
    ({} : DocMeta)
  obtain ⟨dl1, dl2, dl3, dl4⟩ := docxStepLastMod_lists props
    (docxStepAuthor props {})
  obtain ⟨dp1, dp2, dp3, dp4⟩ := docxStepApp_lists props
    (docxStepLastMod props (docxStepAuthor props {}))
  obtain ⟨dv1, dv2, dv3, dv4⟩ := docxStepVersion_lists props
    (docxStepApp props (docxStepLastMod props (docxStepAuthor props {})))
  obtain ⟨dt1, dt2, dt3, dt4⟩ := docxStepTemplate_lists props
    (docxStepVersion props (docxStepApp props
      (docxStepLastMod props (docxStepAuthor props {}))))
  obtain ⟨ge1, ge2, ge3, ge4⟩ := enrich_lists textD (docxExtract props)
  have hDu : (enrich_metadata textD (docxExtract props)).users =
      dedupF (optKeep (props.author.map clean_string)
          (fun a => !a.isEmpty) ++
        optKeep (props.last_modified_by.map clean_string)
          (fun a => !a.isEmpty)) := by
    rw [ge1]
    show (docxStepTemplate props _).users = _
    rw [dt1, dv1, dp1, dl1, da1]
    rw [dedupF_append]
    rfl
  have hDs : (enrich_metadata textD (docxExtract props)).software =
      dedupF (optKeep props.application (fun x => true)) := by
    rw [ge2]
    show (docxStepTemplate props _).software = _
    rw [dt2, dv2, dp2, dl2, da2]
    rfl
  have hDp : (enrich_metadata textD (docxExtract props)).paths =
      dedupF (optKeep props.template hasSlash ++
        textCands textD (fun t => extract_paths t)) := by
    rw [ge3]
    show (textCands textD (fun t => extract_paths t)).foldl insAbs
      (docxStepTemplate props _).paths = _
    rw [dt3, dv3, dp3, dl3, da3]
    rw [dedupF_append, dedupF_optKeep]
    rfl
  have hDe : (enrich_metadata textD (docxExtract props)).emails =
      dedupF (textCands textD (fun t => extract_emails t)) := by
    rw [ge4]
    show (textCands textD (fun t => extract_emails t)).foldl insAbs
      (docxStepTemplate props _).emails = _
    rw [dt4, dv4, dp4, dl4, da4]
    rfl
  refine ⟨⟨hPu, hPs, hPp, hPe, ?_, ?_, ?_, ?_⟩,
    ⟨hDu, hDs, hDp, hDe, ?_, ?_, ?_, ?_⟩⟩
  · rw [hPu]; exact nodup_dedupF _
  · rw [hPs]; exact nodup_dedupF _
  · rw [hPp]; exact nodup_dedupF _
  · rw [hPe]; exact nodup_dedupF _
  · rw [hDu]; exact nodup_dedupF _
  · rw [hDs]; exact nodup_dedupF _
  · rw [hDp]; exact nodup_dedupF _
  · rw [hDe]; exact nodup_dedupF _

/-- C7: a failed extraction (or one without metadata) leaves the
documents list untouched and appends exactly one `(path, error)` pair —
with the falsy-error fallback `"Unknown error"` — to the failures list;
a successful extraction appends exactly one enriched metadata record to
the documents and leaves the failures untouched. -/
theorem process_file_spec (fp : String) (su : Option String)
    (res : ExtractionResultL) (text : Option String)
    (st : ScanResultsL) :
    (res.success = false ∨ res.metadata = none →
      (process_file fp su res text st).documents = st.documents ∧
      (process_file fp su res text st).failed =
        st.failed ++ [(fp, orUnknown res.error)]) ∧
    (∀ m, res.success = true → res.metadata = some m →
      (process_file fp su res text st).documents =
        st.documents ++ [enrich_metadata text (apply_source_url su m)] ∧
      (process_file fp su res text st).failed = st.failed) := by
  constructor
  · intro h
    unfold process_file
    cases hs : res.success with
    | false =>
      cases hm : res.metadata with
      | none => exact ⟨rfl, rfl⟩
      | some m => exact ⟨rfl, rfl⟩
    | true =>
      cases hm : res.metadata with
      | none => exact ⟨rfl, rfl⟩
      | some m =>
        rcases h with h | h
        · rw [hs] at h; cases h
        · rw [hm] at h; cases h
  · intro m hs hm
    unfold process_file
    rw [hs, hm]
    exact ⟨rfl, rfl⟩

/-- Witness for `process_file_spec` at concrete outcomes: a failure with
a `None` error message appends `("f.pdf", "Unknown error")` and keeps
the documents; a success appends one document and keeps the failures. -/
theorem process_file_spec_witness :
    ((process_file "f.pdf" none ⟨false, none, none⟩ none
        ⟨[], []⟩).documents = [] ∧
      (process_file "f.pdf" none ⟨false, none, none⟩ none
        ⟨[], []⟩).failed = [] ++ [("f.pdf", "Unknown error")]) ∧
    ((process_file "g.pdf" none ⟨true, some {}, none⟩ none
        ⟨[], []⟩).documents =
        [] ++ [enrich_metadata none (apply_source_url none {})] ∧
      (process_file "g.pdf" none ⟨true, some {}, none⟩ none
        ⟨[], []⟩).failed = []) :=
  ⟨(process_file_spec "f.pdf" none ⟨false, none, none⟩ none
      ⟨[], []⟩).1 (Or.inl rfl),
   (process_file_spec "g.pdf" none ⟨true, some {}, none⟩ none
      ⟨[], []⟩).2 {} rfl rfl⟩

end MetaExtract
